import Mathlib

/-!
Verification of the pershing placer/router core against its specification.

The Python sources (`placer/placer.py`, `router/router.py`) are shallowly
embedded below: coordinates are integer triples `(y, z, x)`, numpy grids are
functions from coordinates, Python exceptions are an explicit error type, and
the pseudo-random draws consumed by the stochastic operations are passed in
explicitly.  All definitions are executable.
-/

set_option maxHeartbeats 1600000

/-- A voxel coordinate `(y, z, x)`, as used throughout the sources. -/
abbrev Coord : Type := ℤ × ℤ × ℤ

/-- Layout dimensions `(height, width, length)`: `y` is bounded by the height,
`z` by the width and `x` by the length, mirroring `in_bounds` in
`router.py`. -/
abbrev Dims : Type := ℤ × ℤ × ℤ

/-- Embedding of `in_bounds` from `router.py`. -/
def in_bounds (dims : Dims) (c : Coord) : Prop :=
  0 ≤ c.1 ∧ c.1 < dims.1 ∧ 0 ≤ c.2.1 ∧ c.2.1 < dims.2.1 ∧
    0 ≤ c.2.2 ∧ c.2.2 < dims.2.2

instance (dims : Dims) (c : Coord) : Decidable (in_bounds dims c) := by
  unfold in_bounds; infer_instance

/-- Python exceptions that the embedded code can raise. -/
inductive PyErr : Type where
  | valueError
  | zeroDivisionError
  | typeError
  | indexError
deriving DecidableEq, Repr

/-- Embedding of `scipy.spatial.distance.cityblock` on coordinate triples:
the Manhattan distance. -/
def cityblock (a b : Coord) : ℤ :=
  |a.1 - b.1| + |a.2.1 - b.2.1| + |a.2.2 - b.2.2|

/-- The integers from `lo` to `hi` inclusive, in order: the values taken by
Python `xrange(lo, hi + 1)`. -/
def rangeIncl (lo hi : ℤ) : List ℤ :=
  (List.range (hi + 1 - lo).toNat).map (fun (i : ℕ) => lo + (i : ℤ))

/-- Embedding of `Router.dumb_route`: walk `x` from `min(ax, bx)` to
`max(ax, bx)` inclusive on row `(ay, az, _)`, then walk `z` from
`min(az, bz)` to `max(az, bz)` inclusive on column `(ay, _, bx)`.  The `y`
coordinate of `b` is ignored by the source. -/
def dumb_route (a b : Coord) : List Coord :=
  ((rangeIncl (min a.2.2 b.2.2) (max a.2.2 b.2.2)).map (fun x => (a.1, a.2.1, x)))
    ++ ((rangeIncl (min a.2.1 b.2.1) (max a.2.1 b.2.1)).map (fun z => (a.1, z, b.2.2)))

/-- One entry of a placement, as produced by `initial_placement` in
`placer.py`: a cell name, an anchor coordinate, a rotation count and the
pin-to-net map. -/
structure PlacementEntry : Type where
  name : String
  placement : Coord
  turns : ℤ
  pins : List (String × String)
deriving DecidableEq, Repr

/-- The `while cellB is cellA` loop of `generate` in `placer.py`: successive
`random.choice` draws are modelled as a list of indices into the placement
list (entries are assumed to be distinct objects, as `deepcopy` of a
non-aliased list produces, so object identity is index equality); the loop
exits with the first draw different from the index of cell A. -/
def pickB (aIdx : ℕ) (draws : List ℕ) : Option ℕ :=
  draws.find? (fun j => j != aIdx)

/-- Swapping the `placement` anchors of entries `i` and `j`, as the
interchange branch of `generate` does. -/
def swap_anchors (ps : List PlacementEntry) (i j : ℕ) : List PlacementEntry :=
  match ps.get? i, ps.get? j with
  | some pi_, some pj =>
      (ps.set i { pi_ with placement := pj.placement }).set j
        { pj with placement := pi_.placement }
  | _, _ => ps

/-- Embedding of `generate` from `placer.py`.  `aIdx` is the index drawn by
`random.choice(new_placements)` for cell A; `interchange` is the outcome of
`random.random() > 1/displace_interchange_ratio`; `draws` are the successive
`random.choice` indices consumed by the `while cellB is cellA` loop.  The
result `.ok none` marks divergence: the loop consumed every provided draw
without finding a cell distinct from A (no finite number of draws makes it
exit).  The non-interchange branch reproduces the source literally: it
accepts `"displace"` and `"interchange"` and raises `ValueError` otherwise. -/
def generate (old_placements : List PlacementEntry) (method : String)
    (aIdx : ℕ) (interchange : Bool) (draws : List ℕ) :
    Except PyErr (Option (List PlacementEntry)) :=
  if interchange then
    match pickB aIdx draws with
    | some bIdx => .ok (some (swap_anchors old_placements aIdx bIdx))
    | none => .ok none
  else if method = "displace" then .ok (some old_placements)
  else if method = "interchange" then .ok (some old_placements)
  else .error .valueError

/-- The flattened list of all segment scores: `sum(net_scores.itervalues(), [])`
in `normalize_net_scores` (the dict is modelled as an association list in
iteration order). -/
def flat_scores (net_scores : List (String × List ℚ)) : List ℚ :=
  (net_scores.map Prod.snd).flatten

/-- Embedding of `Router.normalize_net_scores` over exact rationals.
Python raises `ValueError` when `min()`/`max()` meet an empty sequence and
`ZeroDivisionError` when `norm_range / (max_score - min_score)` divides by
zero; both are surfaced in the error type.  Note the source multiplies the
raw score by the scale factor without first subtracting `min_score`. -/
def normalize_net_scores (net_scores : List (String × List ℚ))
    (norm_margin : ℚ) : Except PyErr (List (String × List ℚ)) :=
  match flat_scores net_scores with
  | [] => .error .valueError
  | s :: rest =>
    let min_score := rest.foldl min s
    let max_score := rest.foldl max s
    if max_score - min_score = 0 then .error .zeroDivisionError
    else
      let norm_range : ℚ := 1 - 2 * norm_margin
      let scale := norm_range / (max_score - min_score)
      .ok (net_scores.map (fun p => (p.1, p.2.map (fun sc => norm_margin + sc * scale))))

section DumbRouteLemmas

theorem count_map_inj {α β : Type} [BEq α] [LawfulBEq α] [BEq β] [LawfulBEq β]
    (l : List α) (f : α → β) (hinj : ∀ x y, f x = f y → x = y) (x : α) :
    (l.map f).count (f x) = l.count x := by
  induction l with
  | nil => simp
  | cons a t ih =>
    simp only [List.map_cons, List.count_cons, ih]
    have hbeq : (f a == f x) = (a == x) := by
      by_cases h : a = x
      · simp [h]
      · have hf : ¬ f a = f x := fun hfa => h (hinj _ _ hfa)
        simp [h, hf]
    rw [hbeq]

theorem mem_rangeIncl {lo hi c : ℤ} : c ∈ rangeIncl lo hi ↔ lo ≤ c ∧ c ≤ hi := by
  unfold rangeIncl
  rw [List.mem_map]
  constructor
  · rintro ⟨i, hi', rfl⟩
    rw [List.mem_range] at hi'
    omega
  · rintro ⟨h1, h2⟩
    refine ⟨(c - lo).toNat, ?_, by omega⟩
    rw [List.mem_range]
    omega

theorem rangeIncl_nodup (lo hi : ℤ) : (rangeIncl lo hi).Nodup := by
  unfold rangeIncl
  refine (List.nodup_range _).map ?_
  intro i j h
  have h2 : lo + (i : ℤ) = lo + (j : ℤ) := h
  omega

theorem rangeIncl_length (lo hi : ℤ) : (rangeIncl lo hi).length = (hi + 1 - lo).toNat := by
  unfold rangeIncl
  rw [List.length_map, List.length_range]

theorem count_rangeIncl_of_mem {lo hi c : ℤ} (h1 : lo ≤ c) (h2 : c ≤ hi) :
    (rangeIncl lo hi).count c = 1 := by
  have hmem : c ∈ rangeIncl lo hi := mem_rangeIncl.mpr ⟨h1, h2⟩
  have hnd := rangeIncl_nodup lo hi
  have hle := List.nodup_iff_count_le_one.mp hnd c
  have hpos := List.count_pos_iff.mpr hmem
  omega

theorem dumb_route_length (a b : Coord) :
    (dumb_route a b).length =
      (a.2.2 - b.2.2).natAbs + (a.2.1 - b.2.1).natAbs + 2 := by
  unfold dumb_route
  rw [List.length_append, List.length_map, List.length_map,
    rangeIncl_length, rangeIncl_length]
  have h1 : (max a.2.2 b.2.2 + 1 - min a.2.2 b.2.2).toNat = (a.2.2 - b.2.2).natAbs + 1 := by
    rcases le_total a.2.2 b.2.2 with h | h <;>
      simp [max_eq_right, max_eq_left, min_eq_left, min_eq_right, h] <;> omega
  have h2 : (max a.2.1 b.2.1 + 1 - min a.2.1 b.2.1).toNat = (a.2.1 - b.2.1).natAbs + 1 := by
    rcases le_total a.2.1 b.2.1 with h | h <;>
      simp [max_eq_right, max_eq_left, min_eq_left, min_eq_right, h] <;> omega
  omega

theorem dumb_route_corner_count (a b : Coord) :
    (dumb_route a b).count (a.1, a.2.1, b.2.2) = 2 := by
  unfold dumb_route
  rw [List.count_append]
  have hx : ((rangeIncl (min a.2.2 b.2.2) (max a.2.2 b.2.2)).map
      (fun x => ((a.1, a.2.1, x) : Coord))).count (a.1, a.2.1, b.2.2) =
      (rangeIncl (min a.2.2 b.2.2) (max a.2.2 b.2.2)).count b.2.2 := by
    exact count_map_inj _ (fun x => ((a.1, a.2.1, x) : Coord))
      (fun x y h => by simpa using h) b.2.2
  have hz : ((rangeIncl (min a.2.1 b.2.1) (max a.2.1 b.2.1)).map
      (fun z => ((a.1, z, b.2.2) : Coord))).count (a.1, a.2.1, b.2.2) =
      (rangeIncl (min a.2.1 b.2.1) (max a.2.1 b.2.1)).count a.2.1 := by
    exact count_map_inj _ (fun z => ((a.1, z, b.2.2) : Coord))
      (fun x y h => by simpa using h) a.2.1
  rw [hx, hz, count_rangeIncl_of_mem (min_le_right _ _) (le_max_right _ _),
    count_rangeIncl_of_mem (min_le_left _ _) (le_max_left _ _)]

end DumbRouteLemmas

/-- C4 counterexample: for `a = (0,0,0)`, `b = (0,2,3)` (same `y` layer) the
path returned by `dumb_route` has length `7 = |Δx| + |Δz| + 2`, not
`|Δx| + |Δz| + 1 = 6`, and the corner voxel `(0, 0, 3)` appears twice in the
path, not once. -/
theorem C4_counterexample :
    ¬ ((dumb_route (0, 0, 0) (0, 2, 3)).length = 6 ∧
       (dumb_route (0, 0, 0) (0, 2, 3)).count (0, 0, 3) = 1) := by
  decide

/-- C4 (amended): for every pair of pins `a`, `b` with `ay = by`, the path
returned by `dumb_route` has length `|ax − bx| + |az − bz| + 2` (each of the
two passes emits an endpoint-inclusive range), and the corner voxel
`(ay, az, bx)` appears exactly twice in the path: once in the X pass and once
in the Z pass. -/
theorem C4_dumb_route_length (a b : Coord) (_hy : a.1 = b.1) :
    (dumb_route a b).length = (a.2.2 - b.2.2).natAbs + (a.2.1 - b.2.1).natAbs + 2 ∧
    (dumb_route a b).count (a.1, a.2.1, b.2.2) = 2 :=
  ⟨dumb_route_length a b, dumb_route_corner_count a b⟩

/-- C4 witness: the amended statement at `a = (0,0,0)`, `b = (0,2,3)`. -/
theorem C4_witness :
    (dumb_route (0, 0, 0) (0, 2, 3)).length = 3 + 2 + 2 ∧
    (dumb_route (0, 0, 0) (0, 2, 3)).count (0, 0, 3) = 2 :=
  C4_dumb_route_length (0, 0, 0) (0, 2, 3) (by decide)

/-- C7: `generate` raises `ValueError` when called with method `"reorient"`
in the non-interchange branch, although both its docstring and the error
message name `"reorient"` as a valid method, and it accepts the unrecognized
method `"interchange"` without failing.  This contradicts the claim that the
error occurs iff the method is neither `"displace"` nor `"reorient"`. -/
theorem C7_generate_reorient_raises :
    generate [⟨"AND", (0, 0, 0), 0, []⟩] "reorient" 0 false [] = .error .valueError ∧
    generate [⟨"AND", (0, 0, 0), 0, []⟩] "interchange" 0 false [] =
      .ok (some [⟨"AND", (0, 0, 0), 0, []⟩]) ∧
    generate [⟨"AND", (0, 0, 0), 0, []⟩] "displace" 0 false [] =
      .ok (some [⟨"AND", (0, 0, 0), 0, []⟩]) := by
  refine ⟨rfl, rfl, rfl⟩

/-- C10: in the interchange branch, `generate` applied to a one-entry
placement never terminates: every draw of the `while cellB is cellA` loop
returns the single entry again, so no finite sequence of draws exits the
loop (result `.ok none`).  On a placement with at least two entries the loop
exits as soon as some draw differs from the index of cell A — an event of
probability one under uniform draws — and `generate` returns a placement. -/
theorem C10_generate_termination :
    (∀ (ps : List PlacementEntry) (method : String) (draws : List ℕ),
        ps.length = 1 → (∀ d ∈ draws, d < ps.length) →
        generate ps method 0 true draws = .ok none) ∧
    (∀ (ps : List PlacementEntry) (method : String) (aIdx : ℕ) (draws : List ℕ),
        2 ≤ ps.length → aIdx < ps.length → (∃ d ∈ draws, d ≠ aIdx) →
        ∃ r, generate ps method aIdx true draws = .ok (some r)) := by
  constructor
  · intro ps method draws hlen hdraws
    have hnone : pickB 0 draws = none := by
      apply List.find?_eq_none.mpr
      intro d hd
      have := hdraws d hd
      simp only [bne_iff_ne, ne_eq, Decidable.not_not]
      omega
    simp [generate, hnone]
  · intro ps method aIdx draws _ _ hex
    obtain ⟨d, hd, hne⟩ := hex
    have hsome : (pickB aIdx draws).isSome := by
      rw [Option.isSome_iff_exists]
      have : ∃ x ∈ draws, (x != aIdx) = true := ⟨d, hd, by simpa using hne⟩
      obtain ⟨y, hy⟩ := List.find?_isSome.mpr this |> Option.isSome_iff_exists.mp
      exact ⟨y, hy⟩
    obtain ⟨bIdx, hb⟩ := Option.isSome_iff_exists.mp hsome
    exact ⟨swap_anchors ps aIdx bIdx, by simp [generate, hb]⟩

/-- C10 witness: with a single entry, the loop consumes every draw without
exiting; with two entries and a draw hitting the other index, `generate`
terminates with a swapped placement. -/
theorem C10_witness :
    generate [⟨"A", (0, 0, 0), 0, []⟩] "displace" 0 true [0, 0, 0] = .ok none ∧
    ∃ r, generate [⟨"A", (0, 0, 0), 0, []⟩, ⟨"B", (0, 0, 1), 0, []⟩]
        "displace" 0 true [1] = .ok (some r) :=
  ⟨C10_generate_termination.1 _ "displace" _ (by decide) (by decide),
   C10_generate_termination.2 _ "displace" 0 _ (by decide) (by decide)
     ⟨1, by decide, by decide⟩⟩

/-- C5: on the score map `{"a": [1, 2]}` the source maps the minimum score
to `0.9` and the maximum to `1.7`, because it multiplies the raw score by
the scale factor without subtracting `min_score`; the maximum lands outside
`[0.1, 0.9]`, contradicting the claimed min-max scaling (and the function's
own docstring). -/
theorem C5_normalize_not_minmax :
    normalize_net_scores [("a", [1, 2])] (1/10) =
      .ok [("a", [9/10, 17/10])] ∧ ¬ ((17 : ℚ)/10 ≤ 9/10) := by
  constructor
  · show (if max (1:ℚ) 2 - min 1 2 = 0 then (Except.error PyErr.zeroDivisionError) else
      .ok ([("a", [1, 2])].map (fun p => (p.1, p.2.map
        (fun sc : ℚ => 1/10 + sc * ((1 - 2 * (1/10)) / (max (1:ℚ) 2 - min 1 2))))))) =
        .ok [("a", [9/10, 17/10])]
    rw [if_neg (by norm_num)]
    norm_num
  · norm_num

/-- C9: `normalize_net_scores` is total only when not all segment scores are
equal: on every input whose flattened score list is nonempty and has
`max_score = min_score` the scale computation divides by zero
(`ZeroDivisionError`), and whenever `max_score ≠ min_score` it returns a
normalized score map. -/
theorem C9_normalize_zero_division (net_scores : List (String × List ℚ))
    (s : ℚ) (rest : List ℚ) (hflat : flat_scores net_scores = s :: rest) :
    (rest.foldl max s = rest.foldl min s →
      normalize_net_scores net_scores (1/10) = .error .zeroDivisionError) ∧
    (rest.foldl max s ≠ rest.foldl min s →
      ∃ r, normalize_net_scores net_scores (1/10) = .ok r) := by
  constructor
  · intro heq
    simp only [normalize_net_scores, hflat]
    rw [if_pos (by rw [heq]; ring)]
  · intro hne
    simp only [normalize_net_scores, hflat]
    rw [if_neg (by intro h; exact hne (by linarith [sub_eq_zero.mp h]))]
    exact ⟨_, rfl⟩

/-- C9 witness: on `{"a": [1, 1]}` all scores are equal and the call fails
with `ZeroDivisionError`; on `{"a": [1, 2]}` it succeeds. -/
theorem C9_witness :
    normalize_net_scores [("a", [1, 1])] (1/10) = .error .zeroDivisionError ∧
    ∃ r, normalize_net_scores [("a", [1, 2])] (1/10) = .ok r :=
  ⟨(C9_normalize_zero_division [("a", [1, 1])] 1 [1] rfl).1 (by simp),
   (C9_normalize_zero_division [("a", [1, 2])] 1 [2] rfl).2 (by norm_num)⟩

/-! ### The violation model: `net_to_wire_and_violation` -/

/-- A dense 3D numpy array is modelled as a total function on coordinates. -/
abbrev Grid (α : Type) : Type := Coord → α

/-- Numpy index semantics on one axis: an index `0 ≤ i < dim` is itself,
a negative index `-dim ≤ i < 0` wraps around to `dim + i`, and anything
else raises `IndexError`. -/
def npWrap (dim i : ℤ) : Option ℤ :=
  if 0 ≤ i ∧ i < dim then some i
  else if -dim ≤ i ∧ i < 0 then some (dim + i)
  else none

/-- Numpy index semantics on a coordinate triple. -/
def wrapCoord (dims : Dims) (c : Coord) : Option Coord :=
  match npWrap dims.1 c.1, npWrap dims.2.1 c.2.1, npWrap dims.2.2 c.2.2 with
  | some y, some z, some x => some (y, z, x)
  | _, _, _ => none

/-- An unguarded numpy store `g[c] = v`: wraps negative indices and raises
`IndexError` out of range. -/
def gridSet {α : Type} (dims : Dims) (g : Grid α) (c : Coord) (v : α) :
    Except PyErr (Grid α) :=
  match wrapCoord dims c with
  | some c' => .ok (fun d => if d = c' then v else g d)
  | none => .error .indexError

/-- A numpy store wrapped in `try: ... except IndexError: pass`: negative
indices still wrap around; only out-of-range indices are dropped. -/
def gridSetTry {α : Type} (dims : Dims) (g : Grid α) (c : Coord) (v : α) :
    Grid α :=
  match wrapCoord dims c with
  | some c' => fun d => if d = c' then v else g d
  | none => g

/-- The `violation_directions` list of the source. -/
def violation_directions : List (ℤ × ℤ) := [(1, 0), (-1, 0), (0, 1), (0, -1)]

/-- The eight §4.6 neighbors `(y+vy, z+vz, x+vx)` for `vy ∈ {0,-1}` and
`(vz,vx)` in `violation_directions`, in the loop order of the source. -/
def pattern_neighbors (c : Coord) : List Coord :=
  ([0, -1] : List ℤ).flatMap (fun vy =>
    violation_directions.map (fun dzx => (c.1 + vy, c.2.1 + dzx.1, c.2.2 + dzx.2)))

/-- Embedding of `Router.net_to_wire_and_violation`.  The conductor and
substrate block IDs (`block_names.index("redstone_wire")` and
`block_names.index("stone")`) live in `util.blocks`, which is not part of
the sources; per §6 of the spec they are opaque small integers, so they are
taken as parameters `redstone` and `stone`.  Wire stores are unguarded
(an out-of-range store raises), violation stores sit in a
`try/except IndexError` (out-of-range stores are dropped, negative indices
wrap), and the final pass unsets the violation flag on the segment's own
wire and substrate voxels. -/
def net_to_wire_and_violation (net : List Coord) (dims : Dims)
    (pins : List Coord) (redstone stone : ℤ) :
    Except PyErr (Grid ℤ × Grid Bool) := do
  let wv ← net.foldlM (fun (wv : Grid ℤ × Grid Bool) (c : Coord) => do
      let w1 ← gridSet dims wv.1 c redstone
      let w2 ← gridSet dims w1 (c.1 - 1, c.2.1, c.2.2) stone
      let v' := if c ∈ pins then wv.2
        else (pattern_neighbors c).foldl
          (fun v nb => gridSetTry dims v nb true) wv.2
      pure (w2, v')) ((fun _ => 0), (fun _ => false))
  let v2 ← net.foldlM (fun (v : Grid Bool) (c : Coord) => do
      let va ← gridSet dims v c false
      gridSet dims va (c.1 - 1, c.2.1, c.2.2) false) wv.2
  pure (wv.1, v2)

/-- The violation grid produced by `net_to_wire_and_violation` evaluated at
one voxel (false when the call raised), with the concrete conductor and
substrate IDs used by `extract`. -/
def violation_at (net : List Coord) (dims : Dims) (pins : List Coord)
    (c : Coord) : Bool :=
  match net_to_wire_and_violation net dims pins 55 1 with
  | .ok wv => wv.2 c
  | .error _ => false

section ViolationModelLemmas

/-- The wire writes of one loop iteration, with successful stores. -/
def wire_step (dims : Dims) (redstone stone : ℤ) (w : Grid ℤ) (c : Coord) : Grid ℤ :=
  gridSetTry dims (gridSetTry dims w c redstone) (c.1 - 1, c.2.1, c.2.2) stone

/-- The violation writes of one loop iteration. -/
def viol_step (dims : Dims) (pins : List Coord) (v : Grid Bool) (c : Coord) : Grid Bool :=
  if c ∈ pins then v
  else (pattern_neighbors c).foldl (fun v' nb => gridSetTry dims v' nb true) v

/-- The final unset pass of one loop iteration, with successful stores. -/
def unset_step (dims : Dims) (v : Grid Bool) (c : Coord) : Grid Bool :=
  gridSetTry dims (gridSetTry dims v c false) (c.1 - 1, c.2.1, c.2.2) false

theorem foldlM_ok {α β : Type} (l : List β) (f : α → β → Except PyErr α)
    (g : α → β → α) (h : ∀ acc b, b ∈ l → f acc b = .ok (g acc b)) (acc : α) :
    l.foldlM f acc = .ok (l.foldl g acc) := by
  induction l generalizing acc with
  | nil => rfl
  | cons x t ih =>
    rw [List.foldlM_cons, h acc x (List.mem_cons_self x t)]
    show t.foldlM f (g acc x) = .ok (t.foldl g (g acc x))
    exact ih (fun acc' b hb => h acc' b (List.mem_cons_of_mem _ hb)) (g acc x)

theorem wrapCoord_of_in_bounds {dims : Dims} {c : Coord} (h : in_bounds dims c) :
    wrapCoord dims c = some c := by
  obtain ⟨h1, h2, h3, h4, h5, h6⟩ := h
  unfold wrapCoord npWrap
  rw [if_pos ⟨h1, h2⟩, if_pos ⟨h3, h4⟩, if_pos ⟨h5, h6⟩]

theorem wrapCoord_below_isSome {dims : Dims} {c : Coord} (h : in_bounds dims c) :
    (wrapCoord dims (c.1 - 1, c.2.1, c.2.2)).isSome := by
  obtain ⟨h1, h2, h3, h4, h5, h6⟩ := h
  unfold wrapCoord npWrap
  rcases le_or_lt 0 (c.1 - 1) with hy | hy
  · rw [if_pos ⟨hy, by omega⟩, if_pos ⟨h3, h4⟩, if_pos ⟨h5, h6⟩]; rfl
  · rw [if_neg (by omega), if_pos ⟨by omega, hy⟩, if_pos ⟨h3, h4⟩,
      if_pos ⟨h5, h6⟩]; rfl

theorem gridSet_eq_ok {α : Type} (dims : Dims) (g : Grid α) (c : Coord) (v : α)
    (h : (wrapCoord dims c).isSome) :
    gridSet dims g c v = .ok (gridSetTry dims g c v) := by
  unfold gridSet gridSetTry
  cases hw : wrapCoord dims c with
  | some c' => rfl
  | none => rw [hw] at h; exact absurd h (by simp)

theorem gridSetTry_true_cases {dims : Dims} {v : Grid Bool} {t c : Coord}
    (h : gridSetTry dims v t true c = true) :
    v c = true ∨ wrapCoord dims t = some c := by
  unfold gridSetTry at h
  cases hw : wrapCoord dims t with
  | some c' =>
    rw [hw] at h
    have h' : (if c = c' then true else v c) = true := h
    by_cases hc : c = c'
    · exact Or.inr (by rw [hc])
    · exact Or.inl (by rwa [if_neg hc] at h')
  | none => rw [hw] at h; exact Or.inl h

theorem gridSetTry_false_true {dims : Dims} {v : Grid Bool} {t c : Coord}
    (h : gridSetTry dims v t false c = true) : v c = true := by
  unfold gridSetTry at h
  cases hw : wrapCoord dims t with
  | some c' =>
    rw [hw] at h
    have h' : (if c = c' then false else v c) = true := h
    by_cases hc : c = c'
    · rw [if_pos hc] at h'; exact absurd h' (by simp)
    · rwa [if_neg hc] at h'
  | none => rw [hw] at h; exact h

theorem foldl_setTrue_true {dims : Dims} (ts : List Coord) (v : Grid Bool)
    (c : Coord) (h : (ts.foldl (fun v' nb => gridSetTry dims v' nb true) v) c = true) :
    v c = true ∨ ∃ t ∈ ts, wrapCoord dims t = some c := by
  induction ts generalizing v with
  | nil => exact Or.inl h
  | cons t ts ih =>
    rw [List.foldl_cons] at h
    rcases ih _ h with h' | ⟨t', ht', hw⟩
    · rcases gridSetTry_true_cases h' with h'' | hw
      · exact Or.inl h''
      · exact Or.inr ⟨t, List.mem_cons_self t ts, hw⟩
    · exact Or.inr ⟨t', List.mem_cons_of_mem _ ht', hw⟩

theorem violFold_true {dims : Dims} {pins : List Coord} (net : List Coord)
    (v : Grid Bool) (c : Coord)
    (h : (net.foldl (viol_step dims pins) v) c = true) :
    v c = true ∨ ∃ p ∈ net, p ∉ pins ∧
      ∃ nb ∈ pattern_neighbors p, wrapCoord dims nb = some c := by
  induction net generalizing v with
  | nil => exact Or.inl h
  | cons p net ih =>
    rw [List.foldl_cons] at h
    rcases ih _ h with h' | ⟨p', hp', hnp', nb, hnb, hw⟩
    · unfold viol_step at h'
      by_cases hp : p ∈ pins
      · rw [if_pos hp] at h'; exact Or.inl h'
      · rw [if_neg hp] at h'
        rcases foldl_setTrue_true _ _ _ h' with h'' | ⟨t, ht, hw⟩
        · exact Or.inl h''
        · exact Or.inr ⟨p, List.mem_cons_self p net, hp, t, ht, hw⟩
    · exact Or.inr ⟨p', List.mem_cons_of_mem _ hp', hnp', nb, hnb, hw⟩

theorem unsetFold_true {dims : Dims} (net : List Coord) (v : Grid Bool)
    (c : Coord) (h : (net.foldl (unset_step dims) v) c = true) : v c = true := by
  induction net generalizing v with
  | nil => exact h
  | cons p net ih =>
    rw [List.foldl_cons] at h
    exact gridSetTry_false_true (gridSetTry_false_true (ih _ h))

theorem foldl_pair_proj {α β γ : Type} (l : List γ) (f : α → γ → α)
    (g : β → γ → β) (a : α) (b : β) :
    l.foldl (fun (p : α × β) c => (f p.1 c, g p.2 c)) (a, b) =
      (l.foldl f a, l.foldl g b) := by
  induction l generalizing a b with
  | nil => rfl
  | cons x t ih => rw [List.foldl_cons, List.foldl_cons, List.foldl_cons, ih]

/-- For an in-bounds path, `net_to_wire_and_violation` succeeds and its
grids are the plain (exception-free) folds of the per-voxel steps. -/
theorem n2wv_ok (net : List Coord) (dims : Dims) (pins : List Coord)
    (redstone stone : ℤ) (hnet : ∀ c ∈ net, in_bounds dims c) :
    net_to_wire_and_violation net dims pins redstone stone =
      .ok (net.foldl (wire_step dims redstone stone) (fun _ => 0),
        net.foldl (unset_step dims)
          (net.foldl (viol_step dims pins) (fun _ => false))) := by
  unfold net_to_wire_and_violation
  have hstep : ∀ (wv : Grid ℤ × Grid Bool) (c : Coord), c ∈ net →
      (do
        let w1 ← gridSet dims wv.1 c redstone
        let w2 ← gridSet dims w1 (c.1 - 1, c.2.1, c.2.2) stone
        let v' := if c ∈ pins then wv.2
          else (pattern_neighbors c).foldl
            (fun v nb => gridSetTry dims v nb true) wv.2
        pure (w2, v') : Except PyErr (Grid ℤ × Grid Bool)) =
      .ok (wire_step dims redstone stone wv.1 c, viol_step dims pins wv.2 c) := by
    intro wv c hc
    have hib := hnet c hc
    rw [gridSet_eq_ok dims wv.1 c redstone
      (by rw [wrapCoord_of_in_bounds hib]; rfl)]
    show (do
      let w2 ← gridSet dims (gridSetTry dims wv.1 c redstone)
        (c.1 - 1, c.2.1, c.2.2) stone
      let v' := if c ∈ pins then wv.2
        else (pattern_neighbors c).foldl (fun v nb => gridSetTry dims v nb true) wv.2
      pure (w2, v') : Except PyErr (Grid ℤ × Grid Bool)) = _
    rw [gridSet_eq_ok dims _ _ stone (wrapCoord_below_isSome hib)]
    rfl
  rw [foldlM_ok _ _ (fun wv c => (wire_step dims redstone stone wv.1 c,
    viol_step dims pins wv.2 c)) hstep _]
  show (do
    let v2 ← net.foldlM (fun (v : Grid Bool) (c : Coord) => do
      let va ← gridSet dims v c false
      gridSet dims va (c.1 - 1, c.2.1, c.2.2) false)
        (net.foldl (fun wv c => (wire_step dims redstone stone wv.1 c,
          viol_step dims pins wv.2 c))
          ((fun _ => 0), (fun _ => false))).2
    pure ((net.foldl (fun wv c => (wire_step dims redstone stone wv.1 c,
      viol_step dims pins wv.2 c)) ((fun _ => 0), (fun _ => false))).1, v2) :
      Except PyErr (Grid ℤ × Grid Bool)) = _
  have hunset : ∀ (v : Grid Bool) (c : Coord), c ∈ net →
      (do
        let va ← gridSet dims v c false
        gridSet dims va (c.1 - 1, c.2.1, c.2.2) false :
          Except PyErr (Grid Bool)) = .ok (unset_step dims v c) := by
    intro v c hc
    have hib := hnet c hc
    rw [gridSet_eq_ok dims v c false (by rw [wrapCoord_of_in_bounds hib]; rfl)]
    show gridSet dims (gridSetTry dims v c false)
      (c.1 - 1, c.2.1, c.2.2) false = _
    rw [gridSet_eq_ok dims _ _ false (wrapCoord_below_isSome hib)]
    rfl
  rw [foldlM_ok _ _ (unset_step dims) hunset _]
  rw [foldl_pair_proj net (wire_step dims redstone stone)
    (viol_step dims pins) (fun _ => 0) (fun _ => false)]
  rfl

end ViolationModelLemmas

/-- C8 counterexample: with dimensions `(2, 3, 2)`, path `[(0,0,0)]` and no
pins, the violation neighbor `(0, -1, 0)` has a negative `z` coordinate;
instead of being dropped it wraps around (numpy negative indexing) and sets
the far-side voxel `(0, 2, 0)`, which is not one of the in-bounds §4.6
pattern neighbors of any path voxel. -/
theorem C8_counterexample :
    violation_at [(0, 0, 0)] (2, 3, 2) [] (0, 2, 0) = true ∧
    ∀ c ∈ ([(0, 0, 0)] : List Coord),
      ((0, 2, 0) : Coord) ∉ (pattern_neighbors c).filter
        (fun nb => decide (in_bounds (2, 3, 2) nb)) := by
  constructor
  · decide
  · decide

/-- C8 (amended): for every path of in-bounds voxels,
`net_to_wire_and_violation` does not fail, and every voxel set in the
violation grid is the numpy-wrapped image (negative indices wrap to the far
side of the axis; indices beyond the upper bound are dropped by the
`except IndexError` handler) of a §4.6 pattern neighbor of some non-pin
path voxel. -/
theorem C8_oob_neighbors (net : List Coord) (dims : Dims) (pins : List Coord)
    (redstone stone : ℤ) (hnet : ∀ c ∈ net, in_bounds dims c) :
    ∃ w v, net_to_wire_and_violation net dims pins redstone stone = .ok (w, v) ∧
      ∀ c, v c = true → ∃ p ∈ net, p ∉ pins ∧
        ∃ nb ∈ pattern_neighbors p, wrapCoord dims nb = some c := by
  refine ⟨_, _, n2wv_ok net dims pins redstone stone hnet, ?_⟩
  intro c hc
  have h1 := unsetFold_true net _ c hc
  rcases violFold_true net _ c h1 with h2 | h2
  · exact absurd h2 (by simp)
  · exact h2

/-- C8 witness: the amended statement at the counterexample's input. -/
theorem C8_witness :
    ∃ w v, net_to_wire_and_violation [(0, 0, 0)] (2, 3, 2) [] 55 1 = .ok (w, v) ∧
      ∀ c, v c = true → ∃ p ∈ ([(0, 0, 0)] : List Coord), p ∉ ([] : List Coord) ∧
        ∃ nb ∈ pattern_neighbors p, wrapCoord (2, 3, 2) nb = some c :=
  C8_oob_neighbors [(0, 0, 0)] (2, 3, 2) [] 55 1 (by decide)

/-! ### The maze router: `maze_route` -/

/-- Move table of `maze_route` in source order (East, North, West, South,
Up, Down): each entry holds the movement delta, the backtrace code stored
at the relaxed voxel (the direction to take from there back toward `a`:
`EAST = 1`, `NORTH = 2`, `WEST = 3`, `SOUTH = 4`, `UP = 5`, `DOWN = 6`) and
the movement cost. -/
def movements : List (Coord × ℤ × ℤ) :=
  [((0, 0, 1), 3, 1), ((0, 1, 0), 4, 1), ((0, 0, -1), 1, 1),
   ((0, -1, 0), 2, 1), ((3, 0, 0), 6, 3), ((-3, 0, 0), 5, 3)]

/-- Embedding of the `violating` helper inside `maze_route`: a voxel other
than the endpoints is violating when one of its eight §4.6 neighbors is
in bounds, is not an endpoint, and is occupied in the usage matrix. -/
def violating (a b : Coord) (dims : Dims) (usage : Grid Bool) (c : Coord) : Bool :=
  if c = a ∨ c = b then false
  else (pattern_neighbors c).any (fun nb =>
    decide (in_bounds dims nb) && ! decide (nb = a ∨ nb = b) && usage nb)

/-- State of the search loop of `maze_route`: the cost matrix (`-1` means
unseen), the backtrace matrix (`0` means unset), the visited set, and the
binary heap modelled as the list of its entries (the pop operation below
removes the least entry, which is what `heapq.heappop` returns). -/
structure MazeState : Type where
  cost : Grid ℤ
  back : Grid ℤ
  visited : Finset Coord
  heap : List (ℤ × Coord)

/-- Lexicographic comparison of heap entries `(cost, (y, z, x))`, the order
`heapq` uses on tuples. -/
def entryLE (e1 e2 : ℤ × Coord) : Prop :=
  e1.1 < e2.1 ∨ (e1.1 = e2.1 ∧ (e1.2.1 < e2.2.1 ∨ (e1.2.1 = e2.2.1 ∧
    (e1.2.2.1 < e2.2.2.1 ∨ (e1.2.2.1 = e2.2.2.1 ∧ e1.2.2.2 ≤ e2.2.2.2)))))

instance (e1 e2 : ℤ × Coord) : Decidable (entryLE e1 e2) := by
  unfold entryLE; infer_instance

/-- The least entry of the heap (what `heapq.heappop` returns), or `none`
for an empty heap. -/
def heapMin : List (ℤ × Coord) → Option (ℤ × Coord)
  | [] => none
  | e :: t =>
    match heapMin t with
    | none => some e
    | some m => some (if entryLE e m then e else m)

/-- Pop the least entry off the heap. -/
def popMin (h : List (ℤ × Coord)) : Option ((ℤ × Coord) × List (ℤ × Coord)) :=
  match heapMin h with
  | none => none
  | some m => some (m, h.erase m)

/-- The locations currently on the heap (`[entry[1] for entry in
min_dist_heap]`). -/
def heapLocs (h : List (ℤ × Coord)) : List Coord := h.map Prod.snd

/-- Relaxation of one candidate movement from the popped location `loc`,
mirroring the body of the `for` loop in `maze_route`: skip out-of-bounds
and visited neighbors, charge `violation_cost = 1000` instead of the move
cost for violating voxels, update cost and backtrace on improvement, and
push the tentative cost unless the location is already on the heap. -/
def relaxStep (a b : Coord) (dims : Dims) (usage : Grid Bool) (loc : Coord)
    (s : MazeState) (m : Coord × ℤ × ℤ) : MazeState :=
  let nl := loc + m.1
  if ¬ in_bounds dims nl then s
  else if nl ∈ s.visited then s
  else
    let nlc := if violating a b dims usage nl then s.cost loc + 1000
               else s.cost loc + m.2.2
    let s1 := if s.cost nl = -1 ∨ nlc < s.cost nl then
        { s with cost := fun d => if d = nl then nlc else s.cost d,
                 back := fun d => if d = nl then m.2.1 else s.back d }
      else s
    if nl ∈ heapLocs s1.heap then s1
    else { s1 with heap := (nlc, nl) :: s1.heap }

/-- The `while len(min_dist_heap) > 0` loop of `maze_route`, with explicit
fuel (the caller passes one more than the layout volume, which the
termination lemmas below show is enough to drain the heap: every location
is pushed at most once). -/
def mazeLoop (a b : Coord) (dims : Dims) (usage : Grid Bool) :
    ℕ → MazeState → MazeState
  | 0, s => s
  | n + 1, s =>
    match popMin s.heap with
    | none => s
    | some (e, rest) =>
      let s1 : MazeState := { s with heap := rest, visited := insert e.2 s.visited }
      let s2 := movements.foldl (relaxStep a b dims usage e.2) s1
      mazeLoop a b dims usage n s2

/-- Decode a stored backtrace code into the movement taken from the current
voxel back toward `a`
(`backtrace_movements[backtraces.index(backtrace_matrix[net[-1]])]`); the
source raises `ValueError` on an unset code, modelled as `none`. -/
def backMove (k : ℤ) : Option Coord :=
  if k = 1 then some (0, 0, 1)
  else if k = 2 then some (0, 1, 0)
  else if k = 3 then some (0, 0, -1)
  else if k = 4 then some (0, -1, 0)
  else if k = 5 then some (3, 0, 0)
  else if k = 6 then some (-3, 0, 0)
  else none

/-- The path-reconstruction loop `while net[-1] != a`, with fuel; it walks
backtrace arrows from `b` and returns the path `b, …, a`. -/
def backtraceLoop (back : Grid ℤ) (a : Coord) : ℕ → Coord → Option (List Coord)
  | 0, _ => none
  | n + 1, cur =>
    if cur = a then some [a]
    else
      match backMove (back cur) with
      | some mv => (backtraceLoop back a n (cur + mv)).map (fun p => cur :: p)
      | none => none

/-- Embedding of `Router.maze_route`: run the best-first search until the
heap drains, then reconstruct the path from `b` if `b` was visited, else
return `None`.  The placed layout enters only through its shape (the cost
and backtrace matrices) and through the usage matrix. -/
def maze_route (a b : Coord) (dims : Dims) (usage : Grid Bool) :
    Option (List Coord) :=
  let fuel := (dims.1 * dims.2.1 * dims.2.2).toNat + 1
  let s0 : MazeState :=
    { cost := fun c => if c = a then 0 else -1,
      back := fun _ => 0,
      visited := ∅,
      heap := [(0, a)] }
  let s := mazeLoop a b dims usage fuel s0
  if b ∈ s.visited then backtraceLoop s.back a fuel b else none

/-! ### The per-segment body of the rip-up loop: `re_route` -/

/-- A net segment: the endpoint pins, the routed path (`net`, `None` once a
failed reroute has been stored), and the wire and violation grids. -/
structure Segment : Type where
  pins : List Coord
  net : Option (List Coord)
  wire : Grid ℤ
  violation : Grid Bool

/-- One per-segment iteration of the re-routing loop inside `re_route`
(lines 448–457 of `router.py`): unpack the segment's pins, call
`maze_route`, store its result into the segment's `net` field — even when
it is `None` — then recompute the wire and violation grids from the stored
path and OR the new wire into the usage matrix.  When `maze_route` found no
path, iterating over `None` inside `net_to_wire_and_violation` raises
`TypeError`, after the segment's `net` field has already been overwritten;
the exception propagates out of `re_route` (only `KeyboardInterrupt` is
caught there).  Returns the segment state after the body together with the
new usage matrix or the raised exception. -/
def re_route_segment (seg : Segment) (dims : Dims) (usage : Grid Bool)
    (redstone stone : ℤ) : Segment × Except PyErr (Grid Bool) :=
  match seg.pins with
  | [a, b] =>
    let new_net := maze_route a b dims usage
    let seg1 := { seg with net := new_net }
    match new_net with
    | none => (seg1, .error .typeError)
    | some p =>
      match net_to_wire_and_violation p dims [a, b] redstone stone with
      | .error e => (seg1, .error e)
      | .ok wv =>
        ({ seg1 with wire := wv.1, violation := wv.2 },
          .ok (fun c => usage c || decide (wv.1 c ≠ 0)))
  | _ => (seg, .error .valueError)

/-- C2 amended behavior: whenever `maze_route` finds no path for a
segment, the rip-up body overwrites that segment's `net` field with `None`
and then raises `TypeError` while recomputing the wire grid; the previous
path is not retained and the loop aborts instead of continuing. -/
theorem C2_reroute_failure (seg : Segment) (a b : Coord) (dims : Dims)
    (usage : Grid Bool) (redstone stone : ℤ) (hpins : seg.pins = [a, b])
    (hnone : maze_route a b dims usage = none) :
    re_route_segment seg dims usage redstone stone =
      ({ seg with net := none }, .error .typeError) := by
  unfold re_route_segment
  rw [hpins]
  show (let new_net := maze_route a b dims usage
    let seg1 : Segment :=
      { pins := [a, b], net := new_net, wire := seg.wire, violation := seg.violation }
    match new_net with
    | none => (seg1, (.error .typeError : Except PyErr (Grid Bool)))
    | some p =>
      match net_to_wire_and_violation p dims [a, b] redstone stone with
      | .error e => (seg1, .error e)
      | .ok wv =>
        ({ seg1 with wire := wv.1, violation := wv.2 },
          .ok (fun c => usage c || decide (wv.1 c ≠ 0)))) =
    ({ pins := [a, b], net := none, wire := seg.wire,
       violation := seg.violation }, .error .typeError)
  rw [hnone]

/-- C2 counterexample: with layout shape `(2, 1, 1)`, empty usage matrix
and pins `(0,0,0)`, `(1,0,0)` (unreachable: vertical moves span three `y`
units), `maze_route` returns `None`; the loop body then replaces the
segment's previous path `[(0,0,0)]` by `None` — so the segment does not
retain its path — and raises `TypeError` instead of continuing. -/
theorem C2_counterexample :
    (re_route_segment
        ⟨[(0, 0, 0), (1, 0, 0)], some [(0, 0, 0)], fun _ => 0, fun _ => false⟩
        (2, 1, 1) (fun _ => false) 55 1).1.net = none ∧
    (re_route_segment
        ⟨[(0, 0, 0), (1, 0, 0)], some [(0, 0, 0)], fun _ => 0, fun _ => false⟩
        (2, 1, 1) (fun _ => false) 55 1).2 = .error .typeError ∧
    some [((0 : ℤ), (0 : ℤ), (0 : ℤ))] ≠ (none : Option (List Coord)) := by
  refine ⟨?_, ?_, by simp⟩
  · rfl
  · rfl

/-- C2 witness: the amended statement at the counterexample's input. -/
theorem C2_witness :
    re_route_segment
        ⟨[(0, 0, 0), (1, 0, 0)], some [(0, 0, 0)], fun _ => 0, fun _ => false⟩
        (2, 1, 1) (fun _ => false) 55 1 =
      ({ pins := [(0, 0, 0), (1, 0, 0)], net := none,
         wire := fun _ => 0, violation := fun _ => false }, .error .typeError) :=
  C2_reroute_failure _ (0, 0, 0) (1, 0, 0) (2, 1, 1) (fun _ => false) 55 1 rfl (by rfl)

/-! ### Serialization of routings -/

/-- The self-describing text emitted by `json.dump` is modelled at the level
of JSON documents; rendering a document to text and parsing it back with
`json.loads` is the exact inverse pair provided by the `json` collaborator
library and is not re-modelled here. -/
inductive Json : Type where
  | num : ℤ → Json
  | str : String → Json
  | arr : List Json → Json
  | obj : List (String × Json) → Json
  | null : Json

/-- A routing entry for one net: its pin list and its segments. -/
structure NetRouting : Type where
  pins : List Coord
  segments : List Segment

/-- A routing: net name to pins and segments, in iteration order. -/
abbrev Routing : Type := List (String × NetRouting)

/-- A coordinate serializes as a JSON array (Python tuples and lists both
render as arrays). -/
def coordToJson (c : Coord) : Json := .arr [.num c.1, .num c.2.1, .num c.2.2]

def coordListToJson (l : List Coord) : Json := .arr (l.map coordToJson)

def netFieldToJson : Option (List Coord) → Json
  | none => .null
  | some l => coordListToJson l

/-- A segment after `del segment["violation"]; del segment["wire"]`: only
the `pins` and `net` keys remain. -/
def segmentToJson (s : Segment) : Json :=
  .obj [("pins", coordListToJson s.pins), ("net", netFieldToJson s.net)]

def netRoutingToJson (n : NetRouting) : Json :=
  .obj [("pins", coordListToJson n.pins),
        ("segments", .arr (n.segments.map segmentToJson))]

/-- Embedding of `Router.serialize_routing`: deep-copy the routing, delete
the `wire` and `violation` grids of every segment (they are recomputable),
and dump the stripped routing and the layout shape as two JSON documents
(two text lines). -/
def serialize_routing (routing : Routing) (shape : Dims) : Json × Json :=
  (.obj (routing.map (fun p => (p.1, netRoutingToJson p.2))),
   .arr [.num shape.1, .num shape.2.1, .num shape.2.2])

def jsonLookup (fields : List (String × Json)) (k : String) : Option Json :=
  (fields.find? (fun p => p.1 == k)).map Prod.snd

def jsonToCoord : Json → Option Coord
  | .arr [.num y, .num z, .num x] => some (y, z, x)
  | _ => none

def jsonToCoordList : Json → Option (List Coord)
  | .arr l => l.mapM jsonToCoord
  | _ => none

def jsonToDims : Json → Option Dims
  | .arr [.num h, .num d, .num w] => some (h, d, w)
  | _ => none

/-- Decoding one segment during `deserialize_routing`: unpack
`a, b = segment["pins"]` (failing unless there are exactly two pins), read
the stored path, and recompute the `wire` and `violation` grids from them
with `net_to_wire_and_violation` (whose block-ID parameters are threaded
through as in §4.6). -/
def jsonToSegment (shape : Dims) (redstone stone : ℤ) :
    Json → Option Segment
  | .obj fields =>
    match jsonLookup fields "pins", jsonLookup fields "net" with
    | some pinsJ, some netJ =>
      match jsonToCoordList pinsJ, jsonToCoordList netJ with
      | some pins, some net =>
        match pins with
        | [a, b] =>
          match net_to_wire_and_violation net shape [a, b] redstone stone with
          | .ok wv => some ⟨pins, some net, wv.1, wv.2⟩
          | .error _ => none
        | _ => none
      | _, _ => none
    | _, _ => none
  | _ => none

def jsonToNetRouting (shape : Dims) (redstone stone : ℤ) :
    Json → Option NetRouting
  | .obj fields =>
    match jsonLookup fields "pins", jsonLookup fields "segments" with
    | some pinsJ, some (.arr segs) =>
      match jsonToCoordList pinsJ, segs.mapM (jsonToSegment shape redstone stone) with
      | some pins, some segments => some ⟨pins, segments⟩
      | _, _ => none
    | _, _ => none
  | _ => none

/-- Embedding of `Router.deserialize_routing`: read the stripped routing
and the layout shape back, then reconstruct each segment's grids from its
path and pins. -/
def deserialize_routing (doc : Json × Json) (redstone stone : ℤ) :
    Option Routing :=
  match jsonToDims doc.2 with
  | some shape =>
    match doc.1 with
    | .obj entries =>
      entries.mapM (fun p =>
        (jsonToNetRouting shape redstone stone p.2).map (fun nr => (p.1, nr)))
    | _ => none
  | _ => none

/-- The segment reconstructed by deserialization: same pins and path, grids
recomputed by the violation model. -/
def reconstruct_segment (shape : Dims) (redstone stone : ℤ) (s : Segment) :
    Segment :=
  match s.net with
  | some p =>
    match net_to_wire_and_violation p shape s.pins redstone stone with
    | .ok wv => ⟨s.pins, some p, wv.1, wv.2⟩
    | .error _ => s
  | none => s

/-- The serialization-relevant core of a segment: its `pins` and `net`
fields. -/
def segment_core (s : Segment) : List Coord × Option (List Coord) :=
  (s.pins, s.net)

/-- The serialization-relevant core of a routing: net names, net pin lists,
and each segment's `pins` and `net` fields. -/
def routing_core (r : Routing) :
    List (String × (List Coord × List (List Coord × Option (List Coord)))) :=
  r.map (fun p => (p.1, (p.2.pins, p.2.segments.map segment_core)))

section SerializationLemmas

theorem mapM_some_of_forall {α β : Type} (l : List α) (f : α → Option β)
    (g : α → β) (h : ∀ x ∈ l, f x = some (g x)) : l.mapM f = some (l.map g) := by
  induction l with
  | nil => rfl
  | cons x t ih =>
    rw [List.mapM_cons, h x (List.mem_cons_self x t),
      ih (fun y hy => h y (List.mem_cons_of_mem _ hy))]
    rfl

theorem jsonToCoord_round (c : Coord) : jsonToCoord (coordToJson c) = some c := rfl

theorem jsonToCoordList_round (l : List Coord) :
    jsonToCoordList (coordListToJson l) = some l := by
  induction l with
  | nil => rfl
  | cons c t ih =>
    show ((c :: t).map coordToJson).mapM jsonToCoord = some (c :: t)
    rw [List.map_cons, List.mapM_cons, jsonToCoord_round]
    have ih' : (t.map coordToJson).mapM jsonToCoord = some t := ih
    rw [ih']
    rfl

theorem mapM_map_option {α β γ : Type} (l : List α) (f : α → β)
    (g : β → Option γ) :
    (l.map f).mapM g = l.mapM (fun x => g (f x)) := by
  induction l with
  | nil => rfl
  | cons x t ih => rw [List.map_cons, List.mapM_cons, List.mapM_cons, ih]

theorem segment_core_reconstruct (shape : Dims) (redstone stone : ℤ)
    (s : Segment) :
    segment_core (reconstruct_segment shape redstone stone s) = segment_core s := by
  unfold reconstruct_segment
  cases hn : s.net with
  | none => rfl
  | some p =>
    show segment_core
      (match net_to_wire_and_violation p shape s.pins redstone stone with
        | .ok wv => (⟨s.pins, some p, wv.1, wv.2⟩ : Segment)
        | .error _ => s) = segment_core s
    cases hw : net_to_wire_and_violation p shape s.pins redstone stone with
    | error e => rfl
    | ok wv =>
      unfold segment_core
      rw [← hn]

theorem reconstruct_segment_eq (shape : Dims) (redstone stone : ℤ)
    (s : Segment) (a b : Coord) (p : List Coord) (wv : Grid ℤ × Grid Bool)
    (hpins : s.pins = [a, b]) (hnet : s.net = some p)
    (hwv : net_to_wire_and_violation p shape [a, b] redstone stone = .ok wv) :
    reconstruct_segment shape redstone stone s = ⟨[a, b], some p, wv.1, wv.2⟩ := by
  unfold reconstruct_segment
  rw [hnet, hpins]
  show (match net_to_wire_and_violation p shape [a, b] redstone stone with
    | .ok wv => (⟨[a, b], some p, wv.1, wv.2⟩ : Segment)
    | .error _ => s) = _
  rw [hwv]

theorem jsonToSegment_round (shape : Dims) (redstone stone : ℤ) (s : Segment)
    (a b : Coord) (hpins : s.pins = [a, b]) (p : List Coord)
    (hnet : s.net = some p)
    (wv : Grid ℤ × Grid Bool)
    (hwv : net_to_wire_and_violation p shape [a, b] redstone stone = .ok wv) :
    jsonToSegment shape redstone stone (segmentToJson s) =
      some (reconstruct_segment shape redstone stone s) := by
  have h1 : segmentToJson s =
      .obj [("pins", coordListToJson [a, b]), ("net", coordListToJson p)] := by
    unfold segmentToJson
    rw [hpins, hnet]
    rfl
  have h2 := reconstruct_segment_eq shape redstone stone s a b p wv hpins hnet hwv
  rw [h1, h2]
  show (match jsonToCoordList (coordListToJson [a, b]),
      jsonToCoordList (coordListToJson p) with
    | some pins, some net =>
      match pins with
      | [a', b'] =>
        match net_to_wire_and_violation net shape [a', b'] redstone stone with
        | .ok wv => some (⟨pins, some net, wv.1, wv.2⟩ : Segment)
        | .error _ => none
      | _ => none
    | _, _ => none) = some ⟨[a, b], some p, wv.1, wv.2⟩
  rw [jsonToCoordList_round, jsonToCoordList_round]
  show (match net_to_wire_and_violation p shape [a, b] redstone stone with
    | .ok wv => some (⟨[a, b], some p, wv.1, wv.2⟩ : Segment)
    | .error _ => none) = _
  rw [hwv]

theorem jsonToNetRouting_round (shape : Dims) (redstone stone : ℤ)
    (n : NetRouting)
    (hsegs : n.segments.mapM (fun s => jsonToSegment shape redstone stone
      (segmentToJson s)) =
      some (n.segments.map (reconstruct_segment shape redstone stone))) :
    jsonToNetRouting shape redstone stone (netRoutingToJson n) =
      some ⟨n.pins, n.segments.map (reconstruct_segment shape redstone stone)⟩ := by
  show (match jsonToCoordList (coordListToJson n.pins),
      (n.segments.map segmentToJson).mapM (jsonToSegment shape redstone stone) with
    | some pins, some segments => some (⟨pins, segments⟩ : NetRouting)
    | _, _ => none) = _
  rw [jsonToCoordList_round, mapM_map_option, hsegs]

end SerializationLemmas

/-- C6: serializing a routing with the layout shape and deserializing it
back preserves the net names, the per-net `pins` field and every segment's
`pins` and `net` fields, and equips every segment with `wire` and
`violation` grids that are exactly those computed from the segment's stored
path and pins by the violation model (`net_to_wire_and_violation`).  The
hypotheses state that every segment has exactly two pins and an in-bounds
stored path, which is what the deserializer's pin unpacking and grid
reconstruction require. -/
theorem C6_serialize_roundtrip (routing : Routing) (shape : Dims)
    (redstone stone : ℤ)
    (hpins : ∀ e ∈ routing, ∀ s ∈ e.2.segments, s.pins.length = 2)
    (hnet : ∀ e ∈ routing, ∀ s ∈ e.2.segments,
      s.net.isSome = true ∧ ∀ c ∈ s.net.getD [], in_bounds shape c) :
    ∃ R', deserialize_routing (serialize_routing routing shape) redstone stone =
        some R' ∧
      routing_core R' = routing_core routing ∧
      ∀ e ∈ R', ∀ s ∈ e.2.segments, ∃ p, s.net = some p ∧
        net_to_wire_and_violation p shape s.pins redstone stone =
          .ok (s.wire, s.violation) := by
  have hseg_round : ∀ e ∈ routing, ∀ s ∈ e.2.segments,
      jsonToSegment shape redstone stone (segmentToJson s) =
        some (reconstruct_segment shape redstone stone s) := by
    intro e he s hs
    obtain ⟨a, b, hab⟩ := List.length_eq_two.mp (hpins e he s hs)
    obtain ⟨hsome, hin⟩ := hnet e he s hs
    obtain ⟨p, hp⟩ := Option.isSome_iff_exists.mp hsome
    have hin' : ∀ c ∈ p, in_bounds shape c := by
      intro c hc
      apply hin
      rw [hp]
      exact hc
    have hok := n2wv_ok p shape [a, b] redstone stone hin'
    exact jsonToSegment_round shape redstone stone s a b hab p hp _ hok
  refine ⟨routing.map (fun e => (e.1,
    ⟨e.2.pins, e.2.segments.map (reconstruct_segment shape redstone stone)⟩)),
    ?_, ?_, ?_⟩
  · show (routing.map (fun (p : String × NetRouting) =>
        (p.1, netRoutingToJson p.2))).mapM (fun (p : String × Json) =>
        (jsonToNetRouting shape redstone stone p.2).map (fun nr => (p.1, nr))) = _
    rw [mapM_map_option]
    apply mapM_some_of_forall
    intro e he
    have hround := jsonToNetRouting_round shape redstone stone e.2
      (mapM_some_of_forall _ _ _ (fun s hs => hseg_round e he s hs))
    show (jsonToNetRouting shape redstone stone (netRoutingToJson e.2)).map
      (fun nr => (e.1, nr)) = _
    rw [hround]
    rfl
  · unfold routing_core
    rw [List.map_map]
    apply List.map_congr_left
    intro e _
    show (e.1, (e.2.pins, (e.2.segments.map
      (reconstruct_segment shape redstone stone)).map segment_core)) = _
    rw [List.map_map]
    have : (segment_core ∘ reconstruct_segment shape redstone stone) =
        fun s => segment_core s := by
      funext s
      exact segment_core_reconstruct shape redstone stone s
    rw [this]
  · intro e' he' s' hs'
    rw [List.mem_map] at he'
    obtain ⟨e, he, rfl⟩ := he'
    rw [List.mem_map] at hs'
    obtain ⟨s, hs, rfl⟩ := hs'
    obtain ⟨a, b, hab⟩ := List.length_eq_two.mp (hpins e he s hs)
    obtain ⟨hsome, hin⟩ := hnet e he s hs
    obtain ⟨p, hp⟩ := Option.isSome_iff_exists.mp hsome
    have hin' : ∀ c ∈ p, in_bounds shape c := by
      intro c hc
      apply hin
      rw [hp]
      exact hc
    have hok := n2wv_ok p shape [a, b] redstone stone hin'
    rw [reconstruct_segment_eq shape redstone stone s a b p _ hab hp hok]
    exact ⟨p, rfl, hok⟩

/-- C6 witness: the round-trip statement at a concrete one-net routing in a
`(1, 1, 2)` layout. -/
theorem C6_witness :
    ∃ R', deserialize_routing (serialize_routing
        [("n", ⟨[(0, 0, 0), (0, 0, 1)],
          [⟨[(0, 0, 0), (0, 0, 1)], some [(0, 0, 0), (0, 0, 1)],
            fun _ => 0, fun _ => false⟩]⟩)] (1, 1, 2)) 55 1 = some R' ∧
      routing_core R' = routing_core
        [("n", ⟨[(0, 0, 0), (0, 0, 1)],
          [⟨[(0, 0, 0), (0, 0, 1)], some [(0, 0, 0), (0, 0, 1)],
            fun _ => 0, fun _ => false⟩]⟩)] ∧
      ∀ e ∈ R', ∀ s ∈ e.2.segments, ∃ p, s.net = some p ∧
        net_to_wire_and_violation p (1, 1, 2) s.pins 55 1 =
          .ok (s.wire, s.violation) :=
  C6_serialize_roundtrip _ (1, 1, 2) 55 1
    (by
      intro e he s hs
      rw [List.mem_singleton] at he
      subst he
      rw [List.mem_singleton] at hs
      subst hs
      rfl)
    (by
      intro e he s hs
      rw [List.mem_singleton] at he
      subst he
      rw [List.mem_singleton] at hs
      subst hs
      exact ⟨rfl, by decide⟩)

/-! ### The net segmenter: Kruskal's MST in `create_net_segments` -/

/-- The ordered-pair keys of the `weights` dictionary, in the nested-loop
insertion order of the source (`for pin: for pin2: if pin == pin2: continue`);
both orientations of every pair of distinct pins appear. -/
def weightPairs (pins : List Coord) : List (Coord × Coord) :=
  pins.flatMap (fun u => pins.filterMap (fun v =>
    if u = v then none else some (u, v)))

/-- The edges in the order processed by the Kruskal loop:
`sorted(weights, key=weights.get)` — the pairs stably sorted by Manhattan
weight. -/
def sortedEdges (pins : List Coord) : List (Coord × Coord) :=
  (weightPairs pins).mergeSort (fun e1 e2 =>
    decide (cityblock e1.1 e1.2 ≤ cityblock e2.1 e2.2))

/-- Embedding of the inner `find_set`: the first index of a set containing
`u`, or `-1` when there is none. -/
def find_set (sets : List (Finset Coord)) (u : Coord) : ℤ :=
  match sets.findIdx? (fun s => decide (u ∈ s)) with
  | some i => (i : ℤ)
  | none => -1

/-- Python list indexing: a negative index counts from the end. -/
def pyIdx (n : ℕ) (i : ℤ) : ℕ :=
  if 0 ≤ i then i.toNat else n - (-i).toNat

/-- One iteration of the Kruskal loop of `minimum_spanning_tree`: look up
both endpoints, and if they lie in different sets, record the edge, union
the two sets in place (`sets[v_i] |= sets[u_i]`) and pop the absorbed one
(`sets.pop(u_i)`). -/
def kruskal_step (st : List (Finset Coord) × Finset (Coord × Coord))
    (e : Coord × Coord) : List (Finset Coord) × Finset (Coord × Coord) :=
  let sets := st.1
  let u_i := find_set sets e.1
  let v_i := find_set sets e.2
  if u_i ≠ v_i then
    let vi := pyIdx sets.length v_i
    let ui := pyIdx sets.length u_i
    ((sets.set vi ((sets.getD vi ∅) ∪ (sets.getD ui ∅))).eraseIdx ui,
      insert e st.2)
  else st

/-- Embedding of the inner `minimum_spanning_tree` of
`Router.create_net_segments`. -/
def minimum_spanning_tree (net_pins : List Coord) : Finset (Coord × Coord) :=
  ((sortedEdges net_pins).foldl kruskal_step
    (net_pins.map (fun p => ({p} : Finset Coord)), ∅)).2

/-- Embedding of `Router.create_net_segments`: nets with fewer than two
pins are omitted, every other net gets the Kruskal segments of its pins. -/
def create_net_segments (pin_locations : List (String × List Coord)) :
    List (String × Finset (Coord × Coord)) :=
  pin_locations.filterMap (fun p =>
    if p.2.length < 2 then none else some (p.1, minimum_spanning_tree p.2))

/-- Modelled from the spec (§4.4): one step of textbook Kruskal with a
component-labelling union-find — keep the edge iff its endpoints currently
carry different labels, relabelling one component on union. -/
def kruskalSpec_step (st : (Coord → ℕ) × List (Coord × Coord))
    (e : Coord × Coord) : (Coord → ℕ) × List (Coord × Coord) :=
  if st.1 e.1 = st.1 e.2 then st
  else ((fun x => if st.1 x = st.1 e.1 then st.1 e.2 else st.1 x), st.2 ++ [e])

/-- Modelled from the spec (§4.4): Kruskal's MST on the complete graph over
a net's pins with Manhattan-distance edge weights, ties broken by
enumeration order, computed independently of the source's list-of-sets
union-find. -/
def kruskalSpec (net_pins : List Coord) : List (Coord × Coord) :=
  ((sortedEdges net_pins).foldl kruskalSpec_step
    (fun x => net_pins.indexOf x, [])).2

/-- Undirected connectivity through a finite set of ordered-pair edges. -/
def edgeConn (A : Finset (Coord × Coord)) : Coord → Coord → Prop :=
  Relation.ReflTransGen (fun x y => (x, y) ∈ A ∨ (y, x) ∈ A)

/-- The simple graph whose adjacency is the symmetrization of a finite set
of ordered-pair edges. -/
def graphOfEdges (A : Finset (Coord × Coord)) : SimpleGraph Coord where
  Adj x y := x ≠ y ∧ ((x, y) ∈ A ∨ (y, x) ∈ A)
  symm := by
    intro x y h
    exact ⟨fun heq => h.1 heq.symm, h.2.symm⟩
  loopless := fun x h => h.1 rfl

section KruskalBasicLemmas

theorem mem_weightPairs {pins : List Coord} {e : Coord × Coord} :
    e ∈ weightPairs pins ↔ e.1 ∈ pins ∧ e.2 ∈ pins ∧ e.1 ≠ e.2 := by
  unfold weightPairs
  rw [List.mem_flatMap]
  constructor
  · rintro ⟨u, hu, he⟩
    rw [List.mem_filterMap] at he
    obtain ⟨v, hv, hee⟩ := he
    by_cases huv : u = v
    · rw [if_pos huv] at hee; exact absurd hee (by simp)
    · rw [if_neg huv] at hee
      obtain rfl := Option.some.inj hee
      exact ⟨hu, hv, huv⟩
  · rintro ⟨h1, h2, h3⟩
    refine ⟨e.1, h1, ?_⟩
    rw [List.mem_filterMap]
    exact ⟨e.2, h2, by rw [if_neg h3]⟩

theorem mem_sortedEdges {pins : List Coord} {e : Coord × Coord} :
    e ∈ sortedEdges pins ↔ e.1 ∈ pins ∧ e.2 ∈ pins ∧ e.1 ≠ e.2 := by
  unfold sortedEdges
  rw [(List.mergeSort_perm _ _).mem_iff]
  exact mem_weightPairs

theorem find_set_spec (sets : List (Finset Coord)) (u : Coord)
    (hmem : ∃ s ∈ sets, u ∈ s) :
    ∃ i : ℕ, find_set sets u = (i : ℤ) ∧ ∃ hi : i < sets.length, u ∈ sets[i] := by
  obtain ⟨s, hs, hu⟩ := hmem
  have hex : ∃ x ∈ sets, (decide (u ∈ x)) = true := ⟨s, hs, by simpa using hu⟩
  have h1 := List.findIdx?_eq_some_of_exists hex
  have h2 := List.findIdx?_eq_some_iff_findIdx_eq.mp h1
  refine ⟨sets.findIdx (fun s => decide (u ∈ s)), ?_, h2.1, ?_⟩
  · unfold find_set
    rw [h1]
  · have h3 := @List.findIdx_getElem _ (fun s => decide (u ∈ s)) sets h2.1
    simpa using h3

theorem containing_set_unique {sets : List (Finset Coord)}
    (hdisj : sets.Pairwise (fun s t => Disjoint s t)) {u : Coord}
    {s t : Finset Coord} (hs : s ∈ sets) (ht : t ∈ sets)
    (hus : u ∈ s) (hut : u ∈ t) : s = t := by
  by_contra hne
  have hd : Disjoint s t :=
    hdisj.forall (fun x y h => h.symm) hs ht hne
  exact Finset.disjoint_left.mp hd hus hut

theorem sets_getElem_ne {sets : List (Finset Coord)}
    (hdisj : sets.Pairwise (fun s t => Disjoint s t))
    (hne : ∀ s ∈ sets, s.Nonempty) {i j : ℕ}
    (hi : i < sets.length) (hj : j < sets.length) (hij : i ≠ j) :
    sets[i] ≠ sets[j] := by
  intro heq
  have hd : Disjoint sets[i] sets[j] := by
    rcases Nat.lt_or_ge i j with h | h
    · exact List.pairwise_iff_getElem.mp hdisj i j hi hj h
    · exact (List.pairwise_iff_getElem.mp hdisj j i hj hi (by omega)).symm
  rw [heq] at hd
  obtain ⟨x, hx⟩ := hne sets[j] (List.getElem_mem hj)
  exact Finset.disjoint_left.mp hd hx hx

theorem edgeConn_mono {A B : Finset (Coord × Coord)} (h : A ⊆ B) {x y : Coord}
    (hc : edgeConn A x y) : edgeConn B x y :=
  Relation.ReflTransGen.mono (fun _ _ hpq => hpq.imp (fun h1 => h h1) (fun h1 => h h1)) hc

theorem edgeConn_refl {A : Finset (Coord × Coord)} {x : Coord} : edgeConn A x x :=
  Relation.ReflTransGen.refl

theorem edgeConn_symm {A : Finset (Coord × Coord)} {x y : Coord}
    (h : edgeConn A x y) : edgeConn A y x := by
  unfold edgeConn at h ⊢
  induction h with
  | refl => exact Relation.ReflTransGen.refl
  | tail h1 h2 ih =>
    exact Relation.ReflTransGen.head (h2.imp (fun h => h) (fun h => h)).symm ih

theorem edgeConn_trans {A : Finset (Coord × Coord)} {x y z : Coord}
    (h1 : edgeConn A x y) (h2 : edgeConn A y z) : edgeConn A x z :=
  Relation.ReflTransGen.trans h1 h2

theorem edgeConn_single {A : Finset (Coord × Coord)} {u v : Coord}
    (h : (u, v) ∈ A) : edgeConn A u v :=
  Relation.ReflTransGen.single (Or.inl h)

theorem edgeConn_insert_decomp {A : Finset (Coord × Coord)} {u v x y : Coord}
    (h : edgeConn (insert (u, v) A) x y) :
    edgeConn A x y ∨ (edgeConn A x u ∧ edgeConn A v y) ∨
      (edgeConn A x v ∧ edgeConn A u y) := by
  induction h with
  | refl => exact Or.inl edgeConn_refl
  | tail h1 hstep ih =>
    rename_i c y'
    rcases hstep with hcy | hyc
    · rcases Finset.mem_insert.mp hcy with heq | hmem
      · injection heq with hc hy
        subst hc
        subst hy
        rcases ih with ih | ⟨ih1, ih2⟩ | ⟨ih1, ih2⟩
        · exact Or.inr (Or.inl ⟨ih, edgeConn_refl⟩)
        · exact Or.inr (Or.inl ⟨ih1, edgeConn_refl⟩)
        · exact Or.inl ih1
      · rcases ih with ih | ⟨ih1, ih2⟩ | ⟨ih1, ih2⟩
        · exact Or.inl (edgeConn_trans ih (edgeConn_single hmem))
        · exact Or.inr (Or.inl ⟨ih1, edgeConn_trans ih2 (edgeConn_single hmem)⟩)
        · exact Or.inr (Or.inr ⟨ih1, edgeConn_trans ih2 (edgeConn_single hmem)⟩)
    · rcases Finset.mem_insert.mp hyc with heq | hmem
      · injection heq with hy hc
        subst hy
        subst hc
        rcases ih with ih | ⟨ih1, ih2⟩ | ⟨ih1, ih2⟩
        · exact Or.inr (Or.inr ⟨ih, edgeConn_refl⟩)
        · exact Or.inl ih1
        · exact Or.inl (edgeConn_trans ih1 (edgeConn_symm ih2))
      · rcases ih with ih | ⟨ih1, ih2⟩ | ⟨ih1, ih2⟩
        · exact Or.inl (edgeConn_trans ih (edgeConn_symm (edgeConn_single hmem)))
        · exact Or.inr (Or.inl ⟨ih1,
            edgeConn_trans ih2 (edgeConn_symm (edgeConn_single hmem))⟩)
        · exact Or.inr (Or.inr ⟨ih1,
            edgeConn_trans ih2 (edgeConn_symm (edgeConn_single hmem))⟩)

theorem getElem_set_eraseIdx {α : Type} (l : List α) (i j n : ℕ) (m : α)
    (hi : i < l.length)
    (hn : n < ((l.set j m).eraseIdx i).length) :
    ((l.set j m).eraseIdx i)[n] =
      if j = (if n < i then n else n + 1) then m
      else l.get ⟨if n < i then n else n + 1, by
        rw [List.length_eraseIdx, List.length_set, if_pos hi] at hn
        split <;> omega⟩ := by
  rw [List.length_eraseIdx, List.length_set, if_pos hi] at hn
  rw [List.getElem_eraseIdx]
  split <;> rw [List.getElem_set] <;> rw [List.get_eq_getElem]

theorem mem_set_eraseIdx {α : Type} {l : List α} {i j : ℕ} {m x : α}
    (hi : i < l.length) (hj : j < l.length) (hij : i ≠ j) :
    x ∈ (l.set j m).eraseIdx i ↔
      (∃ k, ∃ hk : k < l.length, k ≠ i ∧ k ≠ j ∧ l[k] = x) ∨ x = m := by
  have hlen : ((l.set j m).eraseIdx i).length = l.length - 1 := by
    rw [List.length_eraseIdx, List.length_set, if_pos hi]
  constructor
  · intro hx
    obtain ⟨n, hn, hget⟩ := List.mem_iff_getElem.mp hx
    rw [getElem_set_eraseIdx l i j n m hi hn] at hget
    by_cases hcase : j = (if n < i then n else n + 1)
    · rw [if_pos hcase] at hget
      exact Or.inr hget.symm
    · rw [if_neg hcase] at hget
      rw [hlen] at hn
      refine Or.inl ⟨if n < i then n else n + 1, by split <;> omega, ?_, ?_, hget⟩
      · split <;> omega
      · exact fun hk => hcase hk.symm
  · intro hx
    rcases hx with ⟨k, hk, hki, hkj, hget⟩ | rfl
    · have hkk : (if (if k < i then k else k - 1) < i then (if k < i then k else k - 1)
          else (if k < i then k else k - 1) + 1) = k := by
        rcases Nat.lt_or_ge k i with h | h
        · rw [if_pos h, if_pos h]
        · have h1 : ¬ k < i := by omega
          rw [if_neg h1, if_neg (by omega)]
          omega
      refine List.mem_iff_getElem.mpr ⟨if k < i then k else k - 1, ?_, ?_⟩
      · rw [hlen]; split <;> omega
      · rw [getElem_set_eraseIdx l i j _ m hi (by rw [hlen]; split <;> omega)]
        rw [if_neg (by rw [hkk]; exact fun h => hkj h.symm)]
        simp only [hkk]
        exact hget
    · have hjj : (if (if j < i then j else j - 1) < i then (if j < i then j else j - 1)
          else (if j < i then j else j - 1) + 1) = j := by
        rcases Nat.lt_or_ge j i with h | h
        · rw [if_pos h, if_pos h]
        · have h1 : ¬ j < i := by omega
          rw [if_neg h1, if_neg (by omega)]
          omega
      refine List.mem_iff_getElem.mpr ⟨if j < i then j else j - 1, ?_, ?_⟩
      · rw [hlen]; split <;> omega
      · rw [getElem_set_eraseIdx l i j _ x hi (by rw [hlen]; split <;> omega)]
        rw [if_pos (by rw [hjj])]

end KruskalBasicLemmas

/-- Two coordinates lie in a common member of the union-find set list. -/
def sameSet (sets : List (Finset Coord)) (x y : Coord) : Prop :=
  ∃ s ∈ sets, x ∈ s ∧ y ∈ s

/-- The loop invariant of the Kruskal run in `minimum_spanning_tree`: the
set list partitions the pins into the connected components of the edges
accepted so far, each accepted edge is recorded once (never with both
orientations), the set count and edge count balance, and every accepted
edge is a bridge of the accepted-edge graph. -/
structure KruskalInv (pins : List Coord) (sets : List (Finset Coord))
    (A : Finset (Coord × Coord)) : Prop where
  disj : sets.Pairwise (fun s t => Disjoint s t)
  nonempty : ∀ s ∈ sets, s.Nonempty
  cover : ∀ u, u ∈ pins ↔ ∃ s ∈ sets, u ∈ s
  conn_iff : ∀ u v, u ∈ pins → v ∈ pins → (edgeConn A u v ↔ sameSet sets u v)
  count : sets.length + A.card = pins.length
  edges_pins : ∀ e ∈ A, e.1 ∈ pins ∧ e.2 ∈ pins ∧ e.1 ≠ e.2
  anti : ∀ e ∈ A, (e.2, e.1) ∉ A
  bridge : ∀ e ∈ A, ¬ edgeConn (A.erase e) e.1 e.2

theorem pyIdx_natCast (n i : ℕ) : pyIdx n (i : ℤ) = i := by
  unfold pyIdx
  rw [if_pos (by exact_mod_cast Nat.zero_le i)]
  exact Int.toNat_natCast i

theorem pairwise_disjoint_merge {sets : List (Finset Coord)} {iu iv : ℕ}
    {m : Finset Coord} (hiu : iu < sets.length) (hiv : iv < sets.length)
    (hpairs : ∀ k k', ∀ hk : k < sets.length, ∀ hk' : k' < sets.length,
      k ≠ k' → Disjoint sets[k] sets[k'])
    (hdm : ∀ k, ∀ hk : k < sets.length, k ≠ iu → k ≠ iv → Disjoint m sets[k]) :
    ((sets.set iv m).eraseIdx iu).Pairwise (fun s t => Disjoint s t) := by
  rw [List.pairwise_iff_getElem]
  intro n1 n2 hn1 hn2 hlt
  have hlen : ((sets.set iv m).eraseIdx iu).length = sets.length - 1 := by
    rw [List.length_eraseIdx, List.length_set, if_pos hiu]
  have hn1l : n1 < sets.length - 1 := by rw [← hlen]; exact hn1
  have hn2l : n2 < sets.length - 1 := by rw [← hlen]; exact hn2
  rw [getElem_set_eraseIdx sets iu iv n1 m hiu hn1,
    getElem_set_eraseIdx sets iu iv n2 m hiu hn2]
  rcases Nat.lt_or_ge n1 iu with a1 | a1 <;> rcases Nat.lt_or_ge n2 iu with a2 | a2
  · simp only [if_pos a1, if_pos a2]
    by_cases hb1 : iv = n1
    · rw [if_pos hb1]
      by_cases hb2 : iv = n2
      · exfalso; omega
      · rw [if_neg hb2]
        exact hdm n2 (by omega) (by omega) (fun h => hb2 h.symm)
    · rw [if_neg hb1]
      by_cases hb2 : iv = n2
      · rw [if_pos hb2]
        exact (hdm n1 (by omega) (by omega) (fun h => hb1 h.symm)).symm
      · rw [if_neg hb2]
        exact hpairs n1 n2 (by omega) (by omega) (by omega)
  · simp only [if_pos a1, if_neg (Nat.not_lt.mpr a2)]
    by_cases hb1 : iv = n1
    · rw [if_pos hb1]
      by_cases hb2 : iv = n2 + 1
      · exfalso; omega
      · rw [if_neg hb2]
        exact hdm (n2 + 1) (by omega) (by omega) (fun h => hb2 h.symm)
    · rw [if_neg hb1]
      by_cases hb2 : iv = n2 + 1
      · rw [if_pos hb2]
        exact (hdm n1 (by omega) (by omega) (fun h => hb1 h.symm)).symm
      · rw [if_neg hb2]
        exact hpairs n1 (n2 + 1) (by omega) (by omega) (by omega)
  · exfalso; omega
  · simp only [if_neg (Nat.not_lt.mpr a1), if_neg (Nat.not_lt.mpr a2)]
    by_cases hb1 : iv = n1 + 1
    · rw [if_pos hb1]
      by_cases hb2 : iv = n2 + 1
      · exfalso; omega
      · rw [if_neg hb2]
        exact hdm (n2 + 1) (by omega) (by omega) (fun h => hb2 h.symm)
    · rw [if_neg hb1]
      by_cases hb2 : iv = n2 + 1
      · rw [if_pos hb2]
        exact (hdm (n1 + 1) (by omega) (by omega) (fun h => hb1 h.symm)).symm
      · rw [if_neg hb2]
        exact hpairs (n1 + 1) (n2 + 1) (by omega) (by omega) (by omega)

theorem kruskal_step_inv {pins : List Coord} {sets : List (Finset Coord)}
    {A : Finset (Coord × Coord)} (inv : KruskalInv pins sets A)
    {e : Coord × Coord} (he1 : e.1 ∈ pins) (he2 : e.2 ∈ pins) :
    KruskalInv pins (kruskal_step (sets, A) e).1 (kruskal_step (sets, A) e).2 ∧
    sameSet (kruskal_step (sets, A) e).1 e.1 e.2 ∧
    (∀ x y, sameSet sets x y → sameSet (kruskal_step (sets, A) e).1 x y) ∧
    A ⊆ (kruskal_step (sets, A) e).2 := by
  obtain ⟨iu, hfs_u, hiu, humem⟩ := find_set_spec sets e.1 ((inv.cover e.1).mp he1)
  obtain ⟨iv, hfs_v, hiv, hvmem⟩ := find_set_spec sets e.2 ((inv.cover e.2).mp he2)
  have hlen_pos : 0 < sets.length := by omega
  -- uniqueness of the containing index
  have hpairs : ∀ k k', ∀ hk : k < sets.length, ∀ hk' : k' < sets.length,
      k ≠ k' → Disjoint sets[k] sets[k'] := by
    intro k k' hk hk' hkk
    rcases Nat.lt_or_ge k k' with h | h
    · exact List.pairwise_iff_getElem.mp inv.disj k k' hk hk' h
    · exact (List.pairwise_iff_getElem.mp inv.disj k' k hk' hk (by omega)).symm
  have hUu : ∀ k, ∀ hk : k < sets.length, e.1 ∈ sets[k] → k = iu := by
    intro k hk hmem
    by_contra hne
    exact Finset.disjoint_left.mp (hpairs k iu hk hiu hne) hmem humem
  have hUv : ∀ k, ∀ hk : k < sets.length, e.2 ∈ sets[k] → k = iv := by
    intro k hk hmem
    by_contra hne
    exact Finset.disjoint_left.mp (hpairs k iv hk hiv hne) hmem hvmem
  have hUu' : ∀ s ∈ sets, e.1 ∈ s → s = sets[iu] := fun s hs hm =>
    containing_set_unique inv.disj hs (List.getElem_mem hiu) hm humem
  have hUv' : ∀ s ∈ sets, e.2 ∈ s → s = sets[iv] := fun s hs hm =>
    containing_set_unique inv.disj hs (List.getElem_mem hiv) hm hvmem
  by_cases hidx : iu = iv
  · -- same component: the edge is skipped
    have hstep : kruskal_step (sets, A) e = (sets, A) := by
      unfold kruskal_step
      simp only [hfs_u, hfs_v]
      rw [if_neg (by simp [hidx])]
    rw [hstep]
    subst hidx
    exact ⟨inv, ⟨sets[iu], List.getElem_mem hiu, humem, hvmem⟩,
      fun x y h => h, fun f hf => hf⟩
  · -- different components: accept the edge and merge
    have hnotsame : ¬ sameSet sets e.1 e.2 := by
      rintro ⟨s, hs, h1, h2⟩
      obtain ⟨k, hk, rfl⟩ := List.mem_iff_getElem.mp hs
      exact hidx ((hUu k hk h1).symm.trans (hUv k hk h2))
    have hnotconn : ¬ edgeConn A e.1 e.2 := fun h =>
      hnotsame ((inv.conn_iff e.1 e.2 he1 he2).mp h)
    have heA : e ∉ A := fun h => hnotconn (edgeConn_single h)
    have hne12 : e.1 ≠ e.2 := by
      intro h
      have hmem2 : e.1 ∈ sets[iv] := by rw [h]; exact hvmem
      exact hidx (hUu iv hiv hmem2).symm
    have hstep : kruskal_step (sets, A) e =
        ((sets.set iv (sets[iv] ∪ sets[iu])).eraseIdx iu, insert e A) := by
      unfold kruskal_step
      simp only [hfs_u, hfs_v]
      rw [if_pos (by exact_mod_cast hidx), pyIdx_natCast, pyIdx_natCast,
        List.getD_eq_getElem _ _ hiv, List.getD_eq_getElem _ _ hiu]
    rw [hstep]
    set m : Finset Coord := sets[iv] ∪ sets[iu] with hm
    set sets' : List (Finset Coord) := (sets.set iv m).eraseIdx iu with hsets'
    have hmem' : ∀ x : Finset Coord, x ∈ sets' ↔
        ((∃ k, ∃ hk : k < sets.length, k ≠ iu ∧ k ≠ iv ∧ sets[k] = x) ∨ x = m) :=
      fun x => mem_set_eraseIdx hiu hiv (fun h => hidx h)
    have hm_mem : m ∈ sets' := (hmem' m).mpr (Or.inr rfl)
    have hsub_pins : ∀ s ∈ sets, ∀ x ∈ s, x ∈ pins := by
      intro s hs x hx
      exact (inv.cover x).mpr ⟨s, hs, hx⟩
    -- the new partition characterization of sameSet
    have hsame' : ∀ x y, sameSet sets' x y ↔
        ((∃ k, ∃ hk : k < sets.length, k ≠ iu ∧ k ≠ iv ∧ x ∈ sets[k] ∧ y ∈ sets[k]) ∨
          (x ∈ m ∧ y ∈ m)) := by
      intro x y
      constructor
      · rintro ⟨s, hs, hx, hy⟩
        rcases (hmem' s).mp hs with ⟨k, hk, hki, hkv, rfl⟩ | rfl
        · exact Or.inl ⟨k, hk, hki, hkv, hx, hy⟩
        · exact Or.inr ⟨hx, hy⟩
      · rintro (⟨k, hk, hki, hkv, hx, hy⟩ | ⟨hx, hy⟩)
        · exact ⟨sets[k], (hmem' _).mpr (Or.inl ⟨k, hk, hki, hkv, rfl⟩), hx, hy⟩
        · exact ⟨m, hm_mem, hx, hy⟩
    have hmono : ∀ x y, sameSet sets x y → sameSet sets' x y := by
      rintro x y ⟨s, hs, hx, hy⟩
      obtain ⟨k, hk, rfl⟩ := List.mem_iff_getElem.mp hs
      rw [hsame']
      by_cases hku : k = iu
      · subst hku
        exact Or.inr ⟨Finset.mem_union_right _ hx, Finset.mem_union_right _ hy⟩
      · by_cases hkv : k = iv
        · subst hkv
          exact Or.inr ⟨Finset.mem_union_left _ hx, Finset.mem_union_left _ hy⟩
        · exact Or.inl ⟨k, hk, hku, hkv, hx, hy⟩
    have hsame_e : sameSet sets' e.1 e.2 :=
      ⟨m, hm_mem, Finset.mem_union_right _ humem, Finset.mem_union_left _ hvmem⟩
    -- the invariant, field by field
    refine ⟨⟨?_, ?_, ?_, ?_, ?_, ?_, ?_, ?_⟩, hsame_e, hmono, fun f hf => Finset.mem_insert_of_mem hf⟩
    · -- disj
      refine pairwise_disjoint_merge hiu hiv hpairs ?_
      intro k hk hku hkv
      rw [hm]
      refine Finset.disjoint_union_left.mpr ⟨?_, ?_⟩
      · exact hpairs iv k hiv hk (fun h => hkv h.symm)
      · exact hpairs iu k hiu hk (fun h => hku h.symm)
    · -- nonempty
      intro s hs
      rcases (hmem' s).mp hs with ⟨k, hk, _, _, rfl⟩ | rfl
      · exact inv.nonempty _ (List.getElem_mem hk)
      · obtain ⟨x, hx⟩ := inv.nonempty _ (List.getElem_mem hiu)
        exact ⟨x, Finset.mem_union_right _ hx⟩
    · -- cover
      intro u
      constructor
      · intro hu
        obtain ⟨s, hs, hus⟩ := (inv.cover u).mp hu
        obtain ⟨s', hs', h1, _⟩ := hmono u u ⟨s, hs, hus, hus⟩
        exact ⟨s', hs', h1⟩
      · rintro ⟨s, hs, hus⟩
        rcases (hmem' s).mp hs with ⟨k, hk, _, _, rfl⟩ | rfl
        · exact hsub_pins _ (List.getElem_mem hk) u hus
        · rcases Finset.mem_union.mp hus with h | h
          · exact hsub_pins _ (List.getElem_mem hiv) u h
          · exact hsub_pins _ (List.getElem_mem hiu) u h
    · -- conn_iff
      intro x y hx hy
      constructor
      · intro hconn
        rcases edgeConn_insert_decomp hconn with h | ⟨h1, h2⟩ | ⟨h1, h2⟩
        · exact hmono x y ((inv.conn_iff x y hx hy).mp h)
        · have hs1 := (inv.conn_iff x e.1 hx he1).mp h1
          have hs2 := (inv.conn_iff e.2 y he2 hy).mp h2
          obtain ⟨s1, hs1m, hx1, hu1⟩ := hs1
          obtain ⟨s2, hs2m, hv2, hy2⟩ := hs2
          rw [hUu' s1 hs1m hu1] at hx1
          rw [hUv' s2 hs2m hv2] at hy2
          exact (hsame' x y).mpr (Or.inr ⟨Finset.mem_union_right _ hx1,
            Finset.mem_union_left _ hy2⟩)
        · have hs1 := (inv.conn_iff x e.2 hx he2).mp h1
          have hs2 := (inv.conn_iff e.1 y he1 hy).mp h2
          obtain ⟨s1, hs1m, hx1, hv1⟩ := hs1
          obtain ⟨s2, hs2m, hu2, hy2⟩ := hs2
          rw [hUv' s1 hs1m hv1] at hx1
          rw [hUu' s2 hs2m hu2] at hy2
          exact (hsame' x y).mpr (Or.inr ⟨Finset.mem_union_left _ hx1,
            Finset.mem_union_right _ hy2⟩)
      · intro hsame
        rcases (hsame' x y).mp hsame with ⟨k, hk, hki, hkv, hxk, hyk⟩ | ⟨hxm, hym⟩
        · exact edgeConn_mono (Finset.subset_insert e A)
            ((inv.conn_iff x y hx hy).mpr ⟨sets[k], List.getElem_mem hk, hxk, hyk⟩)
        · have hconn_of : ∀ z, z ∈ m → z ∈ pins →
              edgeConn (insert e A) z e.2 := by
            intro z hz hzp
            rcases Finset.mem_union.mp hz with h | h
            · exact edgeConn_mono (Finset.subset_insert e A)
                ((inv.conn_iff z e.2 hzp he2).mpr
                  ⟨sets[iv], List.getElem_mem hiv, h, hvmem⟩)
            · refine edgeConn_trans (edgeConn_mono (Finset.subset_insert e A)
                ((inv.conn_iff z e.1 hzp he1).mpr
                  ⟨sets[iu], List.getElem_mem hiu, h, humem⟩)) ?_
              exact edgeConn_single (Finset.mem_insert_self e A)
          exact edgeConn_trans (hconn_of x hxm hx)
            (edgeConn_symm (hconn_of y hym hy))
    · -- count
      have hlen' : sets'.length = sets.length - 1 := by
        rw [hsets', List.length_eraseIdx, List.length_set, if_pos hiu]
      rw [hlen', Finset.card_insert_of_not_mem heA]
      have := inv.count
      omega
    · -- edges_pins
      intro f hf
      rcases Finset.mem_insert.mp hf with rfl | hfA
      · exact ⟨he1, he2, hne12⟩
      · exact inv.edges_pins f hfA
    · -- anti
      intro f hf hrev
      rcases Finset.mem_insert.mp hf with rfl | hfA
      · rcases Finset.mem_insert.mp hrev with heq | hrevA
        · exact hne12 (congrArg Prod.snd heq)
        · exact hnotconn (edgeConn_symm (edgeConn_single hrevA))
      · rcases Finset.mem_insert.mp hrev with heq | hrevA
        · -- e = (f.2, f.1): then f's endpoints lie in both sets[iu] and sets[iv]
          have h1 : e.1 = f.2 := by rw [← heq]
          have h2 : e.2 = f.1 := by rw [← heq]
          obtain ⟨s, hs, hf1, hf2⟩ :=
            (inv.conn_iff f.1 f.2 (inv.edges_pins f hfA).1
              (inv.edges_pins f hfA).2.1).mp (edgeConn_single hfA)
          have he1s : e.1 ∈ s := by rw [h1]; exact hf2
          have he2s : e.2 ∈ s := by rw [h2]; exact hf1
          have hsu : s = sets[iu] := hUu' s hs he1s
          have hsv : s = sets[iv] := hUv' s hs he2s
          exact sets_getElem_ne inv.disj inv.nonempty hiu hiv hidx
            (hsu.symm.trans hsv)
        · exact inv.anti f hfA hrevA
    · -- bridge
      intro f hf
      rcases Finset.mem_insert.mp hf with rfl | hfA
      · rw [Finset.erase_insert heA]
        exact hnotconn
      · have hef : e ≠ f := fun h => heA (h ▸ hfA)
        rw [Finset.erase_insert_of_ne hef]
        intro hconn
        rcases edgeConn_insert_decomp hconn with h | ⟨h1, h2⟩ | ⟨h1, h2⟩
        · exact inv.bridge f hfA h
        · have hf1 : edgeConn A f.1 e.1 :=
            edgeConn_mono (Finset.erase_subset f A) h1
          have hf2 : edgeConn A e.2 f.2 :=
            edgeConn_mono (Finset.erase_subset f A) h2
          obtain ⟨hfp1, hfp2, _⟩ := inv.edges_pins f hfA
          obtain ⟨s1, hs1, ha1, hb1⟩ := (inv.conn_iff f.1 e.1 hfp1 he1).mp hf1
          obtain ⟨s2, hs2, ha2, hb2⟩ := (inv.conn_iff e.2 f.2 he2 hfp2).mp hf2
          obtain ⟨s, hs, hc1, hc2⟩ :=
            (inv.conn_iff f.1 f.2 hfp1 hfp2).mp (edgeConn_single hfA)
          have e1 : s1 = sets[iu] := hUu' s1 hs1 hb1
          have e2 : s2 = sets[iv] := hUv' s2 hs2 ha2
          have e3 : s = s1 := containing_set_unique inv.disj hs hs1 hc1 ha1
          have e4 : s = s2 := containing_set_unique inv.disj hs hs2 hc2 hb2
          have hcontra : sets[iu] = sets[iv] := by
            rw [← e1, ← e2, ← e3]
            exact e4
          exact sets_getElem_ne inv.disj inv.nonempty hiu hiv hidx hcontra
        · have hf1 : edgeConn A f.1 e.2 :=
            edgeConn_mono (Finset.erase_subset f A) h1
          have hf2 : edgeConn A e.1 f.2 :=
            edgeConn_mono (Finset.erase_subset f A) h2
          obtain ⟨hfp1, hfp2, _⟩ := inv.edges_pins f hfA
          obtain ⟨s1, hs1, ha1, hb1⟩ := (inv.conn_iff f.1 e.2 hfp1 he2).mp hf1
          obtain ⟨s2, hs2, ha2, hb2⟩ := (inv.conn_iff e.1 f.2 he1 hfp2).mp hf2
          obtain ⟨s, hs, hc1, hc2⟩ :=
            (inv.conn_iff f.1 f.2 hfp1 hfp2).mp (edgeConn_single hfA)
          have e1 : s1 = sets[iv] := hUv' s1 hs1 hb1
          have e2 : s2 = sets[iu] := hUu' s2 hs2 ha2
          have e3 : s = s1 := containing_set_unique inv.disj hs hs1 hc1 ha1
          have e4 : s = s2 := containing_set_unique inv.disj hs hs2 hc2 hb2
          have hcontra : sets[iu] = sets[iv] := by
            rw [← e2, ← e1, ← e4]
            exact e3
          exact sets_getElem_ne inv.disj inv.nonempty hiu hiv hidx hcontra

theorem kruskal_step_cases {pins : List Coord} {sets : List (Finset Coord)}
    {A : Finset (Coord × Coord)} (inv : KruskalInv pins sets A)
    {e : Coord × Coord} (he1 : e.1 ∈ pins) (he2 : e.2 ∈ pins) :
    (sameSet sets e.1 e.2 → kruskal_step (sets, A) e = (sets, A)) ∧
    (¬ sameSet sets e.1 e.2 → (kruskal_step (sets, A) e).2 = insert e A) := by
  obtain ⟨iu, hfs_u, hiu, humem⟩ := find_set_spec sets e.1 ((inv.cover e.1).mp he1)
  obtain ⟨iv, hfs_v, hiv, hvmem⟩ := find_set_spec sets e.2 ((inv.cover e.2).mp he2)
  constructor
  · rintro ⟨s, hs, h1, h2⟩
    have hsu : s = sets[iu] :=
      containing_set_unique inv.disj hs (List.getElem_mem hiu) h1 humem
    have hsv : s = sets[iv] :=
      containing_set_unique inv.disj hs (List.getElem_mem hiv) h2 hvmem
    have hidx : iu = iv := by
      by_contra hne
      exact sets_getElem_ne inv.disj inv.nonempty hiu hiv hne
        (hsu.symm.trans hsv)
    unfold kruskal_step
    simp only [hfs_u, hfs_v]
    rw [if_neg (by simp [hidx])]
  · intro hnot
    have hidx : iu ≠ iv := by
      intro h
      subst h
      exact hnot ⟨sets[iu], List.getElem_mem hiu, humem, hvmem⟩
    unfold kruskal_step
    simp only [hfs_u, hfs_v]
    rw [if_pos (by exact_mod_cast hidx)]

theorem kruskal_fold_inv {pins : List Coord} (edges : List (Coord × Coord))
    (hedges : ∀ e ∈ edges, e.1 ∈ pins ∧ e.2 ∈ pins)
    {sets : List (Finset Coord)} {A : Finset (Coord × Coord)}
    (inv : KruskalInv pins sets A) :
    KruskalInv pins (edges.foldl kruskal_step (sets, A)).1
        (edges.foldl kruskal_step (sets, A)).2 ∧
    (∀ e ∈ edges, sameSet (edges.foldl kruskal_step (sets, A)).1 e.1 e.2) ∧
    (∀ x y, sameSet sets x y →
      sameSet (edges.foldl kruskal_step (sets, A)).1 x y) := by
  induction edges generalizing sets A with
  | nil => exact ⟨inv, by simp, fun x y h => h⟩
  | cons e rest ih =>
    obtain ⟨he1, he2⟩ := hedges e (List.mem_cons_self e rest)
    obtain ⟨inv', hsame_e, hmono, _⟩ := kruskal_step_inv inv he1 he2
    rw [List.foldl_cons]
    have ih' := ih (fun f hf => hedges f (List.mem_cons_of_mem _ hf)) inv'
    refine ⟨ih'.1, ?_, fun x y h => ih'.2.2 x y (hmono x y h)⟩
    intro f hf
    rcases List.mem_cons.mp hf with rfl | hfr
    · exact ih'.2.2 f.1 f.2 hsame_e
    · exact ih'.2.1 f hfr

theorem sameSet_singletons {pins : List Coord} {u v : Coord} (hu : u ∈ pins) :
    sameSet (pins.map (fun p => ({p} : Finset Coord))) u v ↔ u = v := by
  constructor
  · rintro ⟨s, hs, h1, h2⟩
    rw [List.mem_map] at hs
    obtain ⟨p, _, rfl⟩ := hs
    rw [Finset.mem_singleton] at h1 h2
    rw [h1, h2]
  · rintro rfl
    exact ⟨{u}, List.mem_map.mpr ⟨u, hu, rfl⟩, Finset.mem_singleton_self u,
      Finset.mem_singleton_self u⟩

theorem edgeConn_empty {x y : Coord} : edgeConn ∅ x y ↔ x = y := by
  constructor
  · intro h
    induction h with
    | refl => rfl
    | tail h1 h2 ih =>
      rcases h2 with h | h <;> exact absurd h (Finset.not_mem_empty _)
  · rintro rfl
    exact edgeConn_refl

theorem kruskal_init_inv (pins : List Coord) (hnd : pins.Nodup) :
    KruskalInv pins (pins.map (fun p => ({p} : Finset Coord))) ∅ := by
  refine ⟨?_, ?_, ?_, ?_, ?_, ?_, ?_, ?_⟩
  · rw [List.pairwise_map]
    exact hnd.imp (fun h => Finset.disjoint_singleton.mpr h)
  · intro s hs
    rw [List.mem_map] at hs
    obtain ⟨p, _, rfl⟩ := hs
    exact ⟨p, Finset.mem_singleton_self p⟩
  · intro u
    constructor
    · intro hu
      exact ⟨{u}, List.mem_map.mpr ⟨u, hu, rfl⟩, Finset.mem_singleton_self u⟩
    · rintro ⟨s, hs, hus⟩
      rw [List.mem_map] at hs
      obtain ⟨p, hp, rfl⟩ := hs
      rw [Finset.mem_singleton] at hus
      rw [hus]
      exact hp
  · intro u v hu _
    rw [edgeConn_empty, sameSet_singletons hu]
  · rw [List.length_map, Finset.card_empty]
    omega
  · intro f hf
    exact absurd hf (Finset.not_mem_empty f)
  · intro f hf
    exact absurd hf (Finset.not_mem_empty f)
  · intro f hf
    exact absurd hf (Finset.not_mem_empty f)

theorem reachable_of_edgeConn {A : Finset (Coord × Coord)} {x y : Coord}
    (h : edgeConn A x y) : (graphOfEdges A).Reachable x y := by
  rw [SimpleGraph.reachable_iff_reflTransGen]
  induction h with
  | refl => exact Relation.ReflTransGen.refl
  | tail h1 h2 ih =>
    rename_i c y'
    by_cases hcy : c = y'
    · rwa [hcy] at ih
    · exact Relation.ReflTransGen.tail ih ⟨hcy, h2⟩

theorem isAcyclic_of_inv {pins : List Coord} {sets : List (Finset Coord)}
    {A : Finset (Coord × Coord)} (inv : KruskalInv pins sets A) :
    (graphOfEdges A).IsAcyclic := by
  rw [SimpleGraph.isAcyclic_iff_forall_adj_isBridge]
  intro v w hadj
  rw [SimpleGraph.isBridge_iff]
  refine ⟨hadj, ?_⟩
  intro hreach
  obtain ⟨hne, hor⟩ := hadj
  rw [SimpleGraph.reachable_iff_reflTransGen] at hreach
  rcases hor with hm | hm
  · refine inv.bridge (v, w) hm ?_
    refine Relation.ReflTransGen.mono ?_ hreach
    intro p q hpq
    rw [SimpleGraph.sdiff_adj, SimpleGraph.fromEdgeSet_adj] at hpq
    obtain ⟨⟨hpqne, hpq_or⟩, hnot⟩ := hpq
    have hsne : s(p, q) ≠ s(v, w) := fun h =>
      hnot ⟨by rw [h]; exact Set.mem_singleton _, hpqne⟩
    rcases hpq_or with h | h
    · refine Or.inl (Finset.mem_erase.mpr ⟨?_, h⟩)
      intro heq
      exact hsne (by rw [heq])
    · refine Or.inr (Finset.mem_erase.mpr ⟨?_, h⟩)
      intro heq
      refine hsne ?_
      rw [Sym2.eq_swap]
      rw [heq]
  · refine inv.bridge (w, v) hm ?_
    have h1 : Relation.ReflTransGen (fun p q =>
        (p, q) ∈ A.erase (w, v) ∨ (q, p) ∈ A.erase (w, v)) v w := by
      refine Relation.ReflTransGen.mono ?_ hreach
      intro p q hpq
      rw [SimpleGraph.sdiff_adj, SimpleGraph.fromEdgeSet_adj] at hpq
      obtain ⟨⟨hpqne, hpq_or⟩, hnot⟩ := hpq
      have hsne : s(p, q) ≠ s(v, w) := fun h =>
        hnot ⟨by rw [h]; exact Set.mem_singleton _, hpqne⟩
      rcases hpq_or with h | h
      · refine Or.inl (Finset.mem_erase.mpr ⟨?_, h⟩)
        intro heq
        refine hsne ?_
        rw [heq]
        exact Sym2.eq_swap
      · refine Or.inr (Finset.mem_erase.mpr ⟨?_, h⟩)
        intro heq
        refine hsne ?_
        rw [Sym2.eq_swap, heq]
        exact Sym2.eq_swap
    exact edgeConn_symm h1

theorem mst_tree (pins : List Coord) (hnd : pins.Nodup) (hlen : 2 ≤ pins.length) :
    (minimum_spanning_tree pins).card = pins.length - 1 ∧
    (∀ p ∈ pins, ∀ q ∈ pins,
      (graphOfEdges (minimum_spanning_tree pins)).Reachable p q) ∧
    (graphOfEdges (minimum_spanning_tree pins)).IsAcyclic := by
  have hedges : ∀ e ∈ sortedEdges pins, e.1 ∈ pins ∧ e.2 ∈ pins := fun e he =>
    ⟨(mem_sortedEdges.mp he).1, (mem_sortedEdges.mp he).2.1⟩
  obtain ⟨invf, hall, hmono⟩ :=
    kruskal_fold_inv (sortedEdges pins) hedges (kruskal_init_inv pins hnd)
  have hsame_all : ∀ p ∈ pins, ∀ q ∈ pins, sameSet ((sortedEdges pins).foldl
      kruskal_step (pins.map (fun p => ({p} : Finset Coord)), ∅)).1 p q := by
    intro p hp q hq
    by_cases hpq : p = q
    · subst hpq
      obtain ⟨s, hs, hps⟩ := (invf.cover p).mp hp
      exact ⟨s, hs, hps, hps⟩
    · exact hall (p, q) (mem_sortedEdges.mpr ⟨hp, hq, hpq⟩)
  have hlen1 : ((sortedEdges pins).foldl kruskal_step
      (pins.map (fun p => ({p} : Finset Coord)), ∅)).1.length = 1 := by
    obtain ⟨p0, hp0⟩ : ∃ p, p ∈ pins := by
      cases pins with
      | nil => simp at hlen
      | cons a t => exact ⟨a, List.mem_cons_self a t⟩
    obtain ⟨s0, hs0, hp0s⟩ := (invf.cover p0).mp hp0
    have hall_eq : ∀ s ∈ ((sortedEdges pins).foldl kruskal_step
        (pins.map (fun p => ({p} : Finset Coord)), ∅)).1, s = s0 := by
      intro s hs
      obtain ⟨x, hx⟩ := invf.nonempty s hs
      have hxp : x ∈ pins := (invf.cover x).mpr ⟨s, hs, hx⟩
      obtain ⟨t, ht, hxt, hp0t⟩ := hsame_all x hxp p0 hp0
      have h1 : s = t := containing_set_unique invf.disj hs ht hx hxt
      have h2 : t = s0 := containing_set_unique invf.disj ht hs0 hp0t hp0s
      rw [h1, h2]
    by_contra hne1
    rcases (by omega : 2 ≤ ((sortedEdges pins).foldl kruskal_step
        (pins.map (fun p => ({p} : Finset Coord)), ∅)).1.length ∨
        ((sortedEdges pins).foldl kruskal_step
        (pins.map (fun p => ({p} : Finset Coord)), ∅)).1.length = 0) with hge | h0
    · have h0lt : 0 < ((sortedEdges pins).foldl kruskal_step
          (pins.map (fun p => ({p} : Finset Coord)), ∅)).1.length := by omega
      have h1lt : 1 < ((sortedEdges pins).foldl kruskal_step
          (pins.map (fun p => ({p} : Finset Coord)), ∅)).1.length := by omega
      have e0 := hall_eq _ (List.getElem_mem h0lt)
      have e1 := hall_eq _ (List.getElem_mem h1lt)
      have hd := List.pairwise_iff_getElem.mp invf.disj 0 1 h0lt h1lt (by omega)
      rw [e0, e1] at hd
      exact Finset.disjoint_left.mp hd hp0s hp0s
    · rw [List.length_eq_zero] at h0
      rw [h0] at hs0
      exact absurd hs0 (List.not_mem_nil s0)
  refine ⟨?_, ?_, isAcyclic_of_inv invf⟩
  · have hc := invf.count
    rw [hlen1] at hc
    show ((sortedEdges pins).foldl kruskal_step
      (pins.map (fun p => ({p} : Finset Coord)), ∅)).2.card = pins.length - 1
    omega
  · intro p hp q hq
    exact reachable_of_edgeConn ((invf.conn_iff p q hp hq).mpr (hsame_all p hp q hq))

theorem sameSet_symm {sets : List (Finset Coord)} {x y : Coord}
    (h : sameSet sets x y) : sameSet sets y x := by
  obtain ⟨s, hs, h1, h2⟩ := h
  exact ⟨s, hs, h2, h1⟩

theorem sameSet_trans {sets : List (Finset Coord)}
    (hdisj : sets.Pairwise (fun s t => Disjoint s t)) {x y z : Coord}
    (h1 : sameSet sets x y) (h2 : sameSet sets y z) : sameSet sets x z := by
  obtain ⟨s, hs, hx, hy⟩ := h1
  obtain ⟨t, ht, hy', hz⟩ := h2
  have hst : s = t := containing_set_unique hdisj hs ht hy hy'
  rw [hst] at hx
  exact ⟨t, ht, hx, hz⟩

theorem sameSet_step_iff {pins : List Coord} {sets : List (Finset Coord)}
    {A : Finset (Coord × Coord)} (inv : KruskalInv pins sets A)
    {e : Coord × Coord} (he1 : e.1 ∈ pins) (he2 : e.2 ∈ pins)
    (u v : Coord) (hu : u ∈ pins) (hv : v ∈ pins) :
    sameSet (kruskal_step (sets, A) e).1 u v ↔
      (sameSet sets u v ∨ (sameSet sets u e.1 ∧ sameSet sets e.2 v) ∨
        (sameSet sets u e.2 ∧ sameSet sets e.1 v)) := by
  by_cases hss : sameSet sets e.1 e.2
  · rw [(kruskal_step_cases inv he1 he2).1 hss]
    constructor
    · exact Or.inl
    · rintro (h | ⟨h1, h2⟩ | ⟨h1, h2⟩)
      · exact h
      · exact sameSet_trans inv.disj (sameSet_trans inv.disj h1 hss) h2
      · exact sameSet_trans inv.disj (sameSet_trans inv.disj h1 (sameSet_symm hss)) h2
  · have hstep2 := (kruskal_step_cases inv he1 he2).2 hss
    obtain ⟨inv', _, _, _⟩ := kruskal_step_inv inv he1 he2
    have hconn := (inv'.conn_iff u v hu hv).symm
    rw [hstep2] at hconn
    rw [hconn]
    constructor
    · intro h
      rcases edgeConn_insert_decomp h with h | ⟨h1, h2⟩ | ⟨h1, h2⟩
      · exact Or.inl ((inv.conn_iff u v hu hv).mp h)
      · exact Or.inr (Or.inl ⟨(inv.conn_iff u e.1 hu he1).mp h1,
          (inv.conn_iff e.2 v he2 hv).mp h2⟩)
      · exact Or.inr (Or.inr ⟨(inv.conn_iff u e.2 hu he2).mp h1,
          (inv.conn_iff e.1 v he1 hv).mp h2⟩)
    · rintro (h | ⟨h1, h2⟩ | ⟨h1, h2⟩)
      · exact edgeConn_mono (Finset.subset_insert e A)
          ((inv.conn_iff u v hu hv).mpr h)
      · refine edgeConn_trans (edgeConn_mono (Finset.subset_insert e A)
          ((inv.conn_iff u e.1 hu he1).mpr h1)) ?_
        refine edgeConn_trans (edgeConn_single (Finset.mem_insert_self e A)) ?_
        exact edgeConn_mono (Finset.subset_insert e A)
          ((inv.conn_iff e.2 v he2 hv).mpr h2)
      · refine edgeConn_trans (edgeConn_mono (Finset.subset_insert e A)
          ((inv.conn_iff u e.2 hu he2).mpr h1)) ?_
        refine edgeConn_trans (edgeConn_symm
          (edgeConn_single (Finset.mem_insert_self e A))) ?_
        exact edgeConn_mono (Finset.subset_insert e A)
          ((inv.conn_iff e.1 v he1 hv).mpr h2)

theorem root_step_iff {ru rv re1 re2 : ℕ} (_hne : re1 ≠ re2) :
    ((if ru = re1 then re2 else ru) = (if rv = re1 then re2 else rv)) ↔
      (ru = rv ∨ (ru = re1 ∧ rv = re2) ∨ (ru = re2 ∧ rv = re1)) := by
  by_cases h1 : ru = re1
  · rw [if_pos h1]
    by_cases h2 : rv = re1
    · rw [if_pos h2]
      omega
    · rw [if_neg h2]
      omega
  · rw [if_neg h1]
    by_cases h2 : rv = re1
    · rw [if_pos h2]
      omega
    · rw [if_neg h2]
      omega

/-- The simulation between the source's list-of-sets Kruskal and the
spec-modelled label-based Kruskal: the partitions agree, and the accepted
edges agree as a set. -/
structure SimInv (pins : List Coord) (sets : List (Finset Coord))
    (A : Finset (Coord × Coord)) (root : Coord → ℕ)
    (T : List (Coord × Coord)) : Prop where
  kinv : KruskalInv pins sets A
  sim : ∀ u v, u ∈ pins → v ∈ pins → (sameSet sets u v ↔ root u = root v)
  afin : A = T.toFinset
  tnd : T.Nodup

theorem sim_step {pins : List Coord} {sets : List (Finset Coord)}
    {A : Finset (Coord × Coord)} {root : Coord → ℕ} {T : List (Coord × Coord)}
    (sinv : SimInv pins sets A root T) {e : Coord × Coord}
    (he1 : e.1 ∈ pins) (he2 : e.2 ∈ pins) :
    SimInv pins (kruskal_step (sets, A) e).1 (kruskal_step (sets, A) e).2
      (kruskalSpec_step (root, T) e).1 (kruskalSpec_step (root, T) e).2 := by
  obtain ⟨inv, sim, afin, tnd⟩ := sinv
  by_cases hss : sameSet sets e.1 e.2
  · have hr : root e.1 = root e.2 := (sim e.1 e.2 he1 he2).mp hss
    have hcode := (kruskal_step_cases inv he1 he2).1 hss
    have hspec : kruskalSpec_step (root, T) e = (root, T) := by
      unfold kruskalSpec_step
      rw [if_pos hr]
    rw [hcode, hspec]
    exact ⟨inv, sim, afin, tnd⟩
  · have hr : root e.1 ≠ root e.2 := fun h => hss ((sim e.1 e.2 he1 he2).mpr h)
    have hcode2 := (kruskal_step_cases inv he1 he2).2 hss
    obtain ⟨inv', _, _, _⟩ := kruskal_step_inv inv he1 he2
    have heA : e ∉ A := fun h =>
      hss ((inv.conn_iff e.1 e.2 he1 he2).mp (edgeConn_single h))
    have hspec : kruskalSpec_step (root, T) e =
        ((fun x => if root x = root e.1 then root e.2 else root x), T ++ [e]) := by
      unfold kruskalSpec_step
      rw [if_neg hr]
    rw [hspec]
    refine ⟨inv', ?_, ?_, ?_⟩
    · intro u v hu hv
      show sameSet (kruskal_step (sets, A) e).1 u v ↔
        ((if root u = root e.1 then root e.2 else root u) =
          (if root v = root e.1 then root e.2 else root v))
      rw [sameSet_step_iff inv he1 he2 u v hu hv, root_step_iff hr,
        sim u v hu hv, sim u e.1 hu he1, sim e.2 v he2 hv,
        sim u e.2 hu he2, sim e.1 v he1 hv]
      omega
    · show (kruskal_step (sets, A) e).2 = (T ++ [e]).toFinset
      rw [hcode2, afin, List.toFinset_append]
      show insert e T.toFinset = T.toFinset ∪ [e].toFinset
      rw [Finset.insert_eq, Finset.union_comm]
      rfl
    · rw [List.nodup_append]
      refine ⟨tnd, List.nodup_singleton e, ?_⟩
      intro x hx hx'
      rw [List.mem_singleton] at hx'
      subst hx'
      exact heA (by rw [afin]; exact List.mem_toFinset.mpr hx)

theorem sim_fold {pins : List Coord} (edges : List (Coord × Coord))
    (hedges : ∀ e ∈ edges, e.1 ∈ pins ∧ e.2 ∈ pins)
    {sets : List (Finset Coord)} {A : Finset (Coord × Coord)}
    {root : Coord → ℕ} {T : List (Coord × Coord)}
    (sinv : SimInv pins sets A root T) :
    SimInv pins (edges.foldl kruskal_step (sets, A)).1
      (edges.foldl kruskal_step (sets, A)).2
      (edges.foldl kruskalSpec_step (root, T)).1
      (edges.foldl kruskalSpec_step (root, T)).2 := by
  induction edges generalizing sets A root T with
  | nil => exact sinv
  | cons e rest ih =>
    obtain ⟨he1, he2⟩ := hedges e (List.mem_cons_self e rest)
    rw [List.foldl_cons, List.foldl_cons]
    exact ih (fun f hf => hedges f (List.mem_cons_of_mem _ hf))
      (sim_step sinv he1 he2)

theorem indexOf_inj_of_lawful {α : Type} [BEq α] [LawfulBEq α] {l : List α}
    {x y : α} (hx : x ∈ l)
    (h : List.indexOf x l = List.indexOf y l) : x = y := by
  have hlt : l.findIdx (fun a => a == x) < l.length :=
    List.findIdx_lt_length_of_exists ⟨x, hx, beq_self_eq_true x⟩
  have h1 : (l[l.findIdx (fun a => a == x)] == x) = true :=
    @List.findIdx_getElem _ _ _ hlt
  have hfi : l.findIdx (fun a => a == x) = l.findIdx (fun a => a == y) := h
  have hlt2 : l.findIdx (fun a => a == y) < l.length := hfi ▸ hlt
  have h2 : (l[l.findIdx (fun a => a == y)] == y) = true :=
    @List.findIdx_getElem _ _ _ hlt2
  have hx1 : l[l.findIdx (fun a => a == x)] = x := eq_of_beq h1
  have hy1 : l[l.findIdx (fun a => a == y)] = y := eq_of_beq h2
  rw [← hx1, ← hy1]
  congr 1

theorem sim_init (pins : List Coord) (hnd : pins.Nodup) :
    SimInv pins (pins.map (fun p => ({p} : Finset Coord))) ∅
      (fun x => pins.indexOf x) [] := by
  refine ⟨kruskal_init_inv pins hnd, ?_, rfl, List.nodup_nil⟩
  intro u v hu hv
  rw [sameSet_singletons hu]
  constructor
  · intro h
    rw [h]
  · intro h
    exact indexOf_inj_of_lawful hu h

theorem mst_weight_eq (pins : List Coord) (hnd : pins.Nodup) :
    Finset.sum (minimum_spanning_tree pins) (fun e => cityblock e.1 e.2) =
      ((kruskalSpec pins).map (fun e => cityblock e.1 e.2)).sum := by
  have hedges : ∀ e ∈ sortedEdges pins, e.1 ∈ pins ∧ e.2 ∈ pins := fun e he =>
    ⟨(mem_sortedEdges.mp he).1, (mem_sortedEdges.mp he).2.1⟩
  obtain ⟨_, _, afin, tnd⟩ := sim_fold (sortedEdges pins) hedges (sim_init pins hnd)
  show Finset.sum ((sortedEdges pins).foldl kruskal_step
    (pins.map (fun p => ({p} : Finset Coord)), ∅)).2 (fun e => cityblock e.1 e.2) =
    (((sortedEdges pins).foldl kruskalSpec_step
      ((fun x => pins.indexOf x), [])).2.map (fun e => cityblock e.1 e.2)).sum
  rw [afin]
  exact List.sum_toFinset _ tnd

/-- C3: for every net with at least two (distinct) pins, the net segmenter
returns the Kruskal edge set of that net's pins; that edge set has exactly
`pins − 1` edges, connects every pair of pins, is acyclic as an undirected
graph, and its total Manhattan weight equals that of the minimum spanning
tree computed independently by the spec-modelled label-based Kruskal over
the same weight-ordered complete edge enumeration. -/
theorem C3_segmenter_mst (pl : List (String × List Coord)) (name : String)
    (pins : List Coord) (hmem : (name, pins) ∈ pl) (hlen : 2 ≤ pins.length)
    (hnd : pins.Nodup) :
    (name, minimum_spanning_tree pins) ∈ create_net_segments pl ∧
    (minimum_spanning_tree pins).card = pins.length - 1 ∧
    (∀ p ∈ pins, ∀ q ∈ pins,
      (graphOfEdges (minimum_spanning_tree pins)).Reachable p q) ∧
    (graphOfEdges (minimum_spanning_tree pins)).IsAcyclic ∧
    Finset.sum (minimum_spanning_tree pins) (fun e => cityblock e.1 e.2) =
      ((kruskalSpec pins).map (fun e => cityblock e.1 e.2)).sum := by
  obtain ⟨hcard, hreach, hacyc⟩ := mst_tree pins hnd hlen
  refine ⟨?_, hcard, hreach, hacyc, mst_weight_eq pins hnd⟩
  refine List.mem_filterMap.mpr ⟨(name, pins), hmem, ?_⟩
  have hnot : ¬ (name, pins).2.length < 2 := by
    intro hcon
    have hcon2 : pins.length < 2 := hcon
    omega
  rw [if_neg hnot]

/-- C3 witness: the spec's S3 square — four pins at the corners of a
10×10 square. -/
theorem C3_witness :
    ("net", minimum_spanning_tree
        [(0, 0, 0), (0, 0, 10), (0, 10, 0), (0, 10, 10)]) ∈
      create_net_segments
        [("net", [(0, 0, 0), (0, 0, 10), (0, 10, 0), (0, 10, 10)])] ∧
    (minimum_spanning_tree
      [(0, 0, 0), (0, 0, 10), (0, 10, 0), (0, 10, 10)]).card = 4 - 1 ∧
    (∀ p ∈ ([(0, 0, 0), (0, 0, 10), (0, 10, 0), (0, 10, 10)] : List Coord),
      ∀ q ∈ ([(0, 0, 0), (0, 0, 10), (0, 10, 0), (0, 10, 10)] : List Coord),
      (graphOfEdges (minimum_spanning_tree
        [(0, 0, 0), (0, 0, 10), (0, 10, 0), (0, 10, 10)])).Reachable p q) ∧
    (graphOfEdges (minimum_spanning_tree
      [(0, 0, 0), (0, 0, 10), (0, 10, 0), (0, 10, 10)])).IsAcyclic ∧
    Finset.sum (minimum_spanning_tree
        [(0, 0, 0), (0, 0, 10), (0, 10, 0), (0, 10, 10)])
        (fun e => cityblock e.1 e.2) =
      ((kruskalSpec [(0, 0, 0), (0, 0, 10), (0, 10, 0), (0, 10, 10)]).map
        (fun e => cityblock e.1 e.2)).sum :=
  C3_segmenter_mst _ "net" _ (List.mem_singleton_self _) (by decide) (by decide)

/-! ### C1: optimality of `maze_route` over a violation-free layout -/

/-- Cost of one maze move, read off its displacement: 1 for the four
planar unit moves, 3 for the two `±3` vertical moves. -/
def stepCostN (mv : Coord) : ℕ :=
  mv.1.natAbs + mv.2.1.natAbs + mv.2.2.natAbs

/-- The true shortest-path distance from `a` to `c` in the maze graph:
the Manhattan distance (vertical movement happens in strides of 3 that
cost 3, so on stride-aligned voxels it costs exactly the vertical
distance). -/
def mazeDist (a c : Coord) : ℕ :=
  (c.1 - a.1).natAbs + (c.2.1 - a.2.1).natAbs + (c.2.2 - a.2.2).natAbs

/-- Accumulated cost of a path: the sum of the move costs between
consecutive voxels. -/
def pathCostN : List Coord → ℕ
  | [] => 0
  | [_] => 0
  | c :: d :: t => stepCostN (d - c) + pathCostN (d :: t)

/-- `b` is reachable from `a` under the six-move set of the maze router,
with every voxel along the way in bounds. -/
def MazeReachable (dims : Dims) (a b : Coord) : Prop :=
  Relation.ReflTransGen
    (fun c d => in_bounds dims c ∧ in_bounds dims d ∧
      ∃ m ∈ movements, d = c + m.1) a b

/-- The finitely many in-bounds coordinates of a layout. -/
def boundsFinset (dims : Dims) : Finset Coord :=
  (Finset.Ico 0 dims.1) ×ˢ ((Finset.Ico 0 dims.2.1) ×ˢ (Finset.Ico 0 dims.2.2))

theorem mem_boundsFinset {dims : Dims} {c : Coord} :
    c ∈ boundsFinset dims ↔ in_bounds dims c := by
  unfold boundsFinset in_bounds
  rw [Finset.mem_product, Finset.mem_product, Finset.mem_Ico, Finset.mem_Ico,
    Finset.mem_Ico]
  tauto

theorem boundsFinset_card (dims : Dims) :
    (boundsFinset dims).card =
      (dims.1).toNat * ((dims.2.1).toNat * (dims.2.2).toNat) := by
  unfold boundsFinset
  rw [Finset.card_product, Finset.card_product, Int.card_Ico, Int.card_Ico,
    Int.card_Ico]
  simp

theorem movements_facts : ∀ m ∈ movements,
    backMove m.2.1 = some (-m.1) ∧ stepCostN m.1 = (m.2.2).toNat ∧
      ((m.2.2 : ℤ) = 1 ∨ (m.2.2 : ℤ) = 3) ∧ m.1 ≠ 0 ∧
      (m.1.1 = 0 ∨ m.1.1 = 3 ∨ m.1.1 = -3) := by
  decide

theorem mazeDist_step {a c : Coord} {m : Coord × ℤ × ℤ} (hm : m ∈ movements)
    (hdvd : 3 ∣ (c.1 - a.1)) :
    (mazeDist a (c + m.1) = mazeDist a c + (m.2.2).toNat ∨
      mazeDist a (c + m.1) + (m.2.2).toNat = mazeDist a c) ∧
      3 ∣ ((c + m.1).1 - a.1) := by
  obtain ⟨cy, cz, cx⟩ := c
  obtain ⟨ay, az, ax⟩ := a
  simp only [movements, List.mem_cons, List.not_mem_nil, or_false] at hm
  rcases hm with rfl | rfl | rfl | rfl | rfl | rfl <;>
    · simp only [mazeDist, Prod.mk_add_mk] at hdvd ⊢
      constructor
      · omega
      · omega

theorem exists_step_toward {dims : Dims} {a p : Coord} (ha : in_bounds dims a)
    (hp : in_bounds dims p) (hdvd : 3 ∣ (p.1 - a.1)) (hne : p ≠ a) :
    ∃ mv : Coord, (∃ m ∈ movements, m.1 = mv) ∧ (∃ m ∈ movements, m.1 = -mv) ∧
      in_bounds dims (p + mv) ∧ 3 ∣ ((p + mv).1 - a.1) ∧
      mazeDist a (p + mv) < mazeDist a p := by
  obtain ⟨py, pz, px⟩ := p
  obtain ⟨ay, az, ax⟩ := a
  obtain ⟨H, D, W⟩ := dims
  unfold in_bounds at ha hp
  dsimp only at ha hp hdvd
  have hcases : px ≠ ax ∨ pz ≠ az ∨ py ≠ ay := by
    by_contra hcon
    push_neg at hcon
    exact hne (by simp [Prod.ext_iff]; omega)
  by_cases hx : px < ax
  · refine ⟨(0, 0, 1), ⟨((0, 0, 1), 3, 1), by decide, rfl⟩,
      ⟨((0, 0, -1), 1, 1), by decide, rfl⟩, ?_, ?_, ?_⟩ <;>
      · simp only [Prod.mk_add_mk, mazeDist, in_bounds]
        omega
  · by_cases hx2 : ax < px
    · refine ⟨(0, 0, -1), ⟨((0, 0, -1), 1, 1), by decide, rfl⟩,
        ⟨((0, 0, 1), 3, 1), by decide, rfl⟩, ?_, ?_, ?_⟩ <;>
        · simp only [Prod.mk_add_mk, mazeDist, in_bounds]
          omega
    · by_cases hz : pz < az
      · refine ⟨(0, 1, 0), ⟨((0, 1, 0), 4, 1), by decide, rfl⟩,
          ⟨((0, -1, 0), 2, 1), by decide, rfl⟩, ?_, ?_, ?_⟩ <;>
          · simp only [Prod.mk_add_mk, mazeDist, in_bounds]
            omega
      · by_cases hz2 : az < pz
        · refine ⟨(0, -1, 0), ⟨((0, -1, 0), 2, 1), by decide, rfl⟩,
            ⟨((0, 1, 0), 4, 1), by decide, rfl⟩, ?_, ?_, ?_⟩ <;>
            · simp only [Prod.mk_add_mk, mazeDist, in_bounds]
              omega
        · by_cases hy : py < ay
          · refine ⟨(3, 0, 0), ⟨((3, 0, 0), 6, 3), by decide, rfl⟩,
              ⟨((-3, 0, 0), 5, 3), by decide, rfl⟩, ?_, ?_, ?_⟩ <;>
              · simp only [Prod.mk_add_mk, mazeDist, in_bounds]
                omega
          · refine ⟨(-3, 0, 0), ⟨((-3, 0, 0), 5, 3), by decide, rfl⟩,
              ⟨((3, 0, 0), 6, 3), by decide, rfl⟩, ?_, ?_, ?_⟩ <;>
              · simp only [Prod.mk_add_mk, mazeDist, in_bounds]
                omega

theorem mazeReachable_dvd {dims : Dims} {a b : Coord}
    (h : MazeReachable dims a b) : 3 ∣ (b.1 - a.1) := by
  induction h with
  | refl => simp
  | tail _hst hstep ih =>
    obtain ⟨_, _, m, hm, rfl⟩ := hstep
    obtain ⟨_, _, _, _, hy⟩ := movements_facts m hm
    rw [Prod.fst_add]
    rcases hy with hy | hy | hy <;> rw [hy] <;> omega

theorem mazeReachable_of_dvd {dims : Dims} {a : Coord} (ha : in_bounds dims a) :
    ∀ n (b : Coord), mazeDist a b ≤ n → in_bounds dims b → 3 ∣ (b.1 - a.1) →
      MazeReachable dims a b := by
  intro n
  induction n with
  | zero =>
    intro b hd hb hdvd
    have hba : b = a := by
      obtain ⟨qy, qz, qx⟩ := b
      obtain ⟨ay, az, ax⟩ := a
      simp only [mazeDist] at hd
      simp only [Prod.mk.injEq]
      omega
    rw [hba]
    exact Relation.ReflTransGen.refl
  | succ n ih =>
    intro b hd hb hdvd
    by_cases hba : b = a
    · rw [hba]
      exact Relation.ReflTransGen.refl
    · obtain ⟨mv, _, hmvneg, hbnd, hdvd2, hlt⟩ :=
        exists_step_toward ha hb hdvd hba
      have hreach := ih (b + mv) (by omega) hbnd hdvd2
      refine hreach.tail ?_
      obtain ⟨m, hm, hmeq⟩ := hmvneg
      exact ⟨hbnd, hb, m, hm, by rw [hmeq, add_neg_cancel_right]⟩

theorem entryLE_total (e f : ℤ × Coord) : entryLE e f ∨ entryLE f e := by
  unfold entryLE
  omega

theorem entryLE_trans {e f g : ℤ × Coord} (h1 : entryLE e f)
    (h2 : entryLE f g) : entryLE e g := by
  unfold entryLE at h1 h2 ⊢
  omega

theorem heapMin_mem : ∀ {h : List (ℤ × Coord)} {m : ℤ × Coord},
    heapMin h = some m → m ∈ h := by
  intro h
  induction h with
  | nil => intro m hm; simp [heapMin] at hm
  | cons e t ih =>
    intro m hm
    unfold heapMin at hm
    cases ht : heapMin t with
    | none =>
      rw [ht] at hm
      injection hm with hm
      exact hm ▸ List.mem_cons_self e t
    | some m2 =>
      rw [ht] at hm
      injection hm with hm
      by_cases hle : entryLE e m2
      · rw [if_pos hle] at hm
        exact hm ▸ List.mem_cons_self e t
      · rw [if_neg hle] at hm
        exact List.mem_cons_of_mem e (hm ▸ ih ht)

theorem heapMin_le : ∀ {h : List (ℤ × Coord)} {m : ℤ × Coord},
    heapMin h = some m → ∀ x ∈ h, entryLE m x := by
  intro h
  induction h with
  | nil => intro m hm; simp [heapMin] at hm
  | cons e t ih =>
    intro m hm x hx
    unfold heapMin at hm
    cases ht : heapMin t with
    | none =>
      rw [ht] at hm
      injection hm with hm
      subst hm
      have ht2 : t = [] := by
        cases t with
        | nil => rfl
        | cons f s =>
          exfalso
          unfold heapMin at ht
          cases hs : heapMin s with
          | none =>
            rw [hs] at ht
            exact Option.noConfusion ht
          | some m3 =>
            rw [hs] at ht
            exact Option.noConfusion ht
      subst ht2
      rw [List.mem_singleton] at hx
      subst hx
      unfold entryLE
      omega
    | some m2 =>
      rw [ht] at hm
      injection hm with hm
      rcases List.mem_cons.mp hx with rfl | hx2
      · by_cases hle : entryLE x m2
        · rw [if_pos hle] at hm
          subst hm
          unfold entryLE
          omega
        · rw [if_neg hle] at hm
          subst hm
          rcases entryLE_total m2 x with h1 | h1
          · exact h1
          · exact absurd h1 hle
      · by_cases hle : entryLE e m2
        · rw [if_pos hle] at hm
          subst hm
          exact entryLE_trans hle (ih ht x hx2)
        · rw [if_neg hle] at hm
          subst hm
          exact ih ht x hx2

theorem violating_false {a b : Coord} {dims : Dims} {usage : Grid Bool}
    (hus : ∀ c, usage c = false) (c : Coord) :
    violating a b dims usage c = false := by
  unfold violating
  split
  · rfl
  · rw [List.any_eq_false]
    intro nb _
    rw [hus nb]
    simp

theorem mazeDist_eq_zero {a b : Coord} (h : mazeDist a b = 0) : b = a := by
  obtain ⟨qy, qz, qx⟩ := b
  obtain ⟨ay, az, ax⟩ := a
  simp only [mazeDist] at h
  simp only [Prod.mk.injEq]
  omega

theorem stepCostN_neg (mv : Coord) : stepCostN (-mv) = stepCostN mv := by
  obtain ⟨my, mz, mx⟩ := mv
  simp only [stepCostN, Prod.neg_mk]
  omega

theorem heapLocs_cons (e : ℤ × Coord) (h : List (ℤ × Coord)) :
    heapLocs (e :: h) = e.2 :: heapLocs h := rfl

/-- Loop invariant of the search loop of `maze_route` over a
violation-free layout, at the top of the `while`: costs of seen voxels are
the true distances from `a`, the heap holds exactly the seen unvisited
voxels with their true distances as keys, every in-bounds neighbor of a
visited voxel is seen, and backtrace arrows of seen voxels step to a seen
voxel exactly one move closer to `a`. -/
structure MazeInv (a : Coord) (dims : Dims) (s : MazeState) : Prop where
  seen_a : s.cost a ≠ -1
  seen_reach : ∀ c, s.cost c ≠ -1 → in_bounds dims c ∧ 3 ∣ (c.1 - a.1)
  seen_cost : ∀ c, s.cost c ≠ -1 → s.cost c = (mazeDist a c : ℤ)
  seen_iff : ∀ c, s.cost c ≠ -1 ↔ (c ∈ s.visited ∨ c ∈ heapLocs s.heap)
  heap_nodup : (heapLocs s.heap).Nodup
  heap_entry : ∀ e ∈ s.heap, e.1 = (mazeDist a e.2 : ℤ) ∧ e.2 ∉ s.visited
  closure : ∀ c ∈ s.visited, ∀ m ∈ movements, in_bounds dims (c + m.1) →
    s.cost (c + m.1) ≠ -1
  back_ok : ∀ c, s.cost c ≠ -1 → c ≠ a → ∃ mv, backMove (s.back c) = some mv ∧
    in_bounds dims (c + mv) ∧ s.cost (c + mv) ≠ -1 ∧
    mazeDist a c = mazeDist a (c + mv) + stepCostN mv

/-- Invariant during the relaxation fold over the six movements from the
just-popped location `loc`: as `MazeInv` but the closure property is only
promised away from `loc`, and `loc` realizes the minimum distance over the
unvisited voxels (the popped heap entry was minimal). -/
structure RInv (a : Coord) (dims : Dims) (loc : Coord) (s : MazeState) : Prop where
  cost_loc : s.cost loc = (mazeDist a loc : ℤ)
  seen_a : s.cost a ≠ -1
  seen_reach : ∀ c, s.cost c ≠ -1 → in_bounds dims c ∧ 3 ∣ (c.1 - a.1)
  seen_cost : ∀ c, s.cost c ≠ -1 → s.cost c = (mazeDist a c : ℤ)
  seen_iff : ∀ c, s.cost c ≠ -1 ↔ (c ∈ s.visited ∨ c ∈ heapLocs s.heap)
  heap_nodup : (heapLocs s.heap).Nodup
  heap_entry : ∀ e ∈ s.heap, e.1 = (mazeDist a e.2 : ℤ) ∧ e.2 ∉ s.visited
  closure_old : ∀ c ∈ s.visited, c ≠ loc → ∀ m ∈ movements,
    in_bounds dims (c + m.1) → s.cost (c + m.1) ≠ -1
  back_ok : ∀ c, s.cost c ≠ -1 → c ≠ a → ∃ mv, backMove (s.back c) = some mv ∧
    in_bounds dims (c + mv) ∧ s.cost (c + mv) ≠ -1 ∧
    mazeDist a c = mazeDist a (c + mv) + stepCostN mv
  hmin : ∀ p, in_bounds dims p → 3 ∣ (p.1 - a.1) → p ∉ s.visited →
    mazeDist a loc ≤ mazeDist a p

theorem frontier_bound {a : Coord} {dims : Dims} {s : MazeState}
    (inv : MazeInv a dims s) (ha : in_bounds dims a) :
    ∀ n (p : Coord), mazeDist a p ≤ n → in_bounds dims p → 3 ∣ (p.1 - a.1) →
      p ∉ s.visited → ∃ q ∈ heapLocs s.heap, mazeDist a q ≤ mazeDist a p := by
  intro n
  induction n with
  | zero =>
    intro p hd hp hdvd hnv
    have hpa : p = a := mazeDist_eq_zero (by omega)
    subst hpa
    rcases (inv.seen_iff p).mp inv.seen_a with hv | hq
    · exact absurd hv hnv
    · exact ⟨p, hq, le_refl _⟩
  | succ n ih =>
    intro p hd hp hdvd hnv
    by_cases hph : p ∈ heapLocs s.heap
    · exact ⟨p, hph, le_refl _⟩
    · have hunseen : s.cost p = -1 := by
        by_contra hcon
        rcases (inv.seen_iff p).mp hcon with hv | hq
        · exact hnv hv
        · exact hph hq
      by_cases hpa : p = a
      · rw [hpa] at hunseen
        exact absurd hunseen inv.seen_a
      · obtain ⟨mv, _, hmvneg, hbnd, hdvd2, hlt⟩ :=
          exists_step_toward ha hp hdvd hpa
        have hq0nv : p + mv ∉ s.visited := by
          intro hcon
          obtain ⟨m2, hm2, hm2eq⟩ := hmvneg
          have hclo := inv.closure (p + mv) hcon m2 hm2
          rw [hm2eq, add_neg_cancel_right] at hclo
          exact (hclo hp) hunseen
        obtain ⟨q, hq, hle⟩ := ih (p + mv) (by omega) hbnd hdvd2 hq0nv
        exact ⟨q, hq, le_trans hle (le_of_lt hlt)⟩


theorem relaxStep_pres {a b : Coord} {dims : Dims} {usage : Grid Bool}
    {loc : Coord} {s : MazeState} {m : Coord × ℤ × ℤ}
    (hus : ∀ c, usage c = false) (hm : m ∈ movements)
    (ri : RInv a dims loc s) :
    RInv a dims loc (relaxStep a b dims usage loc s m) ∧
      (∀ c, s.cost c ≠ -1 → (relaxStep a b dims usage loc s m).cost c ≠ -1) ∧
      (in_bounds dims (loc + m.1) →
        (relaxStep a b dims usage loc s m).cost (loc + m.1) ≠ -1) := by
  obtain ⟨hback, hstepc, hcost13, hm1ne, _⟩ := movements_facts m hm
  by_cases hbd : in_bounds dims (loc + m.1)
  · by_cases hvis : loc + m.1 ∈ s.visited
    · have heq : relaxStep a b dims usage loc s m = s := by
        simp only [relaxStep]
        rw [if_neg (not_not_intro hbd), if_pos hvis]
      rw [heq]
      exact ⟨ri, fun c h => h,
        fun _ => (ri.seen_iff (loc + m.1)).mpr (Or.inl hvis)⟩
    · have hviol : violating a b dims usage (loc + m.1) = false :=
        violating_false hus _
      have hseenloc : s.cost loc ≠ -1 := by
        rw [ri.cost_loc]
        omega
      have hdvdloc : 3 ∣ (loc.1 - a.1) := (ri.seen_reach loc hseenloc).2
      have hbndloc : in_bounds dims loc := (ri.seen_reach loc hseenloc).1
      obtain ⟨hexact, hdvd2⟩ := mazeDist_step hm hdvdloc
      have hminnl : mazeDist a loc ≤ mazeDist a (loc + m.1) :=
        ri.hmin (loc + m.1) hbd hdvd2 hvis
      have hdistnl : mazeDist a (loc + m.1) = mazeDist a loc + (m.2.2).toNat := by
        rcases hexact with h | h
        · exact h
        · omega
      have hnlcv : s.cost loc + m.2.2 = ((mazeDist a (loc + m.1) : ℕ) : ℤ) := by
        rw [ri.cost_loc, hdistnl]
        push_cast
        omega
      have hlocnl : ¬ (loc = loc + m.1) := by
        intro hcon
        exact hm1ne (self_eq_add_right.mp hcon)
      by_cases hseen : s.cost (loc + m.1) = -1
      · have hnotheap : loc + m.1 ∉ heapLocs s.heap := by
          intro hcon
          exact ((ri.seen_iff (loc + m.1)).mpr (Or.inr hcon)) hseen
        have hnla : ¬ (loc + m.1 = a) := by
          intro hcon
          rw [hcon] at hseen
          exact ri.seen_a hseen
        have heq : relaxStep a b dims usage loc s m =
            { cost := fun d => if d = loc + m.1 then s.cost loc + m.2.2
                else s.cost d,
              back := fun d => if d = loc + m.1 then m.2.1 else s.back d,
              visited := s.visited,
              heap := (s.cost loc + m.2.2, loc + m.1) :: s.heap } := by
          simp only [relaxStep]
          simp only [if_neg (not_not_intro hbd), if_neg hvis, hviol,
            if_neg (show ¬ (false = true) by decide), if_pos (Or.inl hseen),
            if_neg hnotheap]
        have hcostEq : ∀ d, (relaxStep a b dims usage loc s m).cost d =
            if d = loc + m.1 then s.cost loc + m.2.2 else s.cost d := by
          intro d
          rw [heq]
        have hbackEq : ∀ d, (relaxStep a b dims usage loc s m).back d =
            if d = loc + m.1 then m.2.1 else s.back d := by
          intro d
          rw [heq]
        have hvisEq : (relaxStep a b dims usage loc s m).visited = s.visited := by
          rw [heq]
        have hheapEq : (relaxStep a b dims usage loc s m).heap =
            (s.cost loc + m.2.2, loc + m.1) :: s.heap := by
          rw [heq]
        refine ⟨⟨?_, ?_, ?_, ?_, ?_, ?_, ?_, ?_, ?_, ?_⟩, ?_, ?_⟩
        · rw [hcostEq loc, if_neg hlocnl]
          exact ri.cost_loc
        · rw [hcostEq a, if_neg (fun h => hnla h.symm)]
          exact ri.seen_a
        · intro c
          rw [hcostEq c]
          by_cases hc : c = loc + m.1
          · rw [if_pos hc, hc]
            exact fun _ => ⟨hbd, hdvd2⟩
          · rw [if_neg hc]
            exact ri.seen_reach c
        · intro c
          rw [hcostEq c]
          by_cases hc : c = loc + m.1
          · rw [if_pos hc, hc]
            exact fun _ => hnlcv
          · rw [if_neg hc]
            exact ri.seen_cost c
        · intro c
          rw [hcostEq c, hvisEq, hheapEq, heapLocs_cons, List.mem_cons]
          by_cases hc : c = loc + m.1
          · rw [if_pos hc]
            constructor
            · exact fun _ => Or.inr (Or.inl hc)
            · intro _
              rw [hnlcv]
              omega
          · rw [if_neg hc, ri.seen_iff c]
            constructor
            · intro h
              rcases h with h | h
              · exact Or.inl h
              · exact Or.inr (Or.inr h)
            · intro h
              rcases h with h | h | h
              · exact Or.inl h
              · exact absurd h hc
              · exact Or.inr h
        · rw [hheapEq, heapLocs_cons, List.nodup_cons]
          exact ⟨hnotheap, ri.heap_nodup⟩
        · intro e he
          rw [hheapEq] at he
          rw [hvisEq]
          rcases List.mem_cons.mp he with rfl | he2
          · exact ⟨hnlcv, hvis⟩
          · exact ri.heap_entry e he2
        · intro c hcv hcl m2 hm2 hbd2
          rw [hvisEq] at hcv
          rw [hcostEq (c + m2.1)]
          by_cases h : c + m2.1 = loc + m.1
          · rw [if_pos h, hnlcv]
            omega
          · rw [if_neg h]
            exact ri.closure_old c hcv hcl m2 hm2 hbd2
        · intro c hc hca
          rw [hcostEq c] at hc
          by_cases hcnl : c = loc + m.1
          · have hcl : c + -m.1 = loc := by
              rw [hcnl, add_neg_cancel_right]
            refine ⟨-m.1, ?_, ?_, ?_, ?_⟩
            · rw [hbackEq c, if_pos hcnl]
              exact hback
            · rw [hcl]
              exact hbndloc
            · rw [hcostEq (c + -m.1), hcl, if_neg hlocnl]
              exact hseenloc
            · rw [hcl, hcnl, hdistnl, stepCostN_neg, hstepc]
          · rw [if_neg hcnl] at hc
            obtain ⟨mv, h1, h2, h3, h4⟩ := ri.back_ok c hc hca
            refine ⟨mv, ?_, h2, ?_, h4⟩
            · rw [hbackEq c, if_neg hcnl]
              exact h1
            · rw [hcostEq (c + mv)]
              by_cases h5 : c + mv = loc + m.1
              · rw [if_pos h5, hnlcv]
                omega
              · rw [if_neg h5]
                exact h3
        · intro p h1 h2 h3
          rw [hvisEq] at h3
          exact ri.hmin p h1 h2 h3
        · intro c hcold
          rw [hcostEq c]
          by_cases h : c = loc + m.1
          · rw [if_pos h, hnlcv]
            omega
          · rw [if_neg h]
            exact hcold
        · intro _
          rw [hcostEq (loc + m.1), if_pos rfl, hnlcv]
          omega
      · have hinheap : loc + m.1 ∈ heapLocs s.heap :=
          ((ri.seen_iff (loc + m.1)).mp hseen).resolve_left hvis
        have hnoimp : ¬ (s.cost (loc + m.1) = -1 ∨
            s.cost loc + m.2.2 < s.cost (loc + m.1)) := by
          intro hcon
          rcases hcon with hcon | hcon
          · exact hseen hcon
          · rw [hnlcv, ri.seen_cost (loc + m.1) hseen] at hcon
            exact lt_irrefl _ hcon
        have heq : relaxStep a b dims usage loc s m = s := by
          simp only [relaxStep]
          simp only [if_neg (not_not_intro hbd), if_neg hvis, hviol,
            if_neg (show ¬ (false = true) by decide), if_neg hnoimp,
            if_pos hinheap]
        rw [heq]
        exact ⟨ri, fun c h => h, fun _ => hseen⟩
  · have heq : relaxStep a b dims usage loc s m = s := by
      simp only [relaxStep]
      rw [if_pos hbd]
    rw [heq]
    exact ⟨ri, fun c h => h, fun h => absurd h hbd⟩

theorem relaxStep_visited (a b : Coord) (dims : Dims) (usage : Grid Bool)
    (loc : Coord) (s : MazeState) (m : Coord × ℤ × ℤ) :
    (relaxStep a b dims usage loc s m).visited = s.visited := by
  simp only [relaxStep]
  split
  · rfl
  · split
    · rfl
    · repeat' split
      all_goals rfl

theorem foldl_relax_visited (a b : Coord) (dims : Dims) (usage : Grid Bool)
    (loc : Coord) :
    ∀ (l : List (Coord × ℤ × ℤ)) (s : MazeState),
      (l.foldl (relaxStep a b dims usage loc) s).visited = s.visited := by
  intro l
  induction l with
  | nil => intro s; rfl
  | cons m t ih =>
    intro s
    rw [List.foldl_cons, ih, relaxStep_visited]

theorem relax_fold {a b : Coord} {dims : Dims} {usage : Grid Bool}
    {loc : Coord} (hus : ∀ c, usage c = false) :
    ∀ (l : List (Coord × ℤ × ℤ)), (∀ m ∈ l, m ∈ movements) →
    ∀ {s : MazeState}, RInv a dims loc s →
      RInv a dims loc (l.foldl (relaxStep a b dims usage loc) s) ∧
      (∀ c, s.cost c ≠ -1 →
        (l.foldl (relaxStep a b dims usage loc) s).cost c ≠ -1) ∧
      (∀ m ∈ l, in_bounds dims (loc + m.1) →
        (l.foldl (relaxStep a b dims usage loc) s).cost (loc + m.1) ≠ -1) := by
  intro l
  induction l with
  | nil =>
    intro _ s ri
    exact ⟨ri, fun c h => h, fun m hm => absurd hm (by simp)⟩
  | cons m t ih =>
    intro hl s ri
    have hm : m ∈ movements := hl m (List.mem_cons_self m t)
    obtain ⟨ri1, hmono1, hnl1⟩ := relaxStep_pres (b := b) hus hm ri
    obtain ⟨ri2, hmono2, hnl2⟩ :=
      ih (fun f hf => hl f (List.mem_cons_of_mem m hf)) ri1
    rw [List.foldl_cons]
    refine ⟨ri2, fun c h => hmono2 c (hmono1 c h), ?_⟩
    intro f hf hbf
    rcases List.mem_cons.mp hf with rfl | hf2
    · exact hmono2 _ (hnl1 hbf)
    · exact hnl2 f hf2 hbf

theorem heapMin_eq_none {h : List (ℤ × Coord)} (hm : heapMin h = none) :
    h = [] := by
  cases h with
  | nil => rfl
  | cons e t =>
    exfalso
    unfold heapMin at hm
    cases ht : heapMin t with
    | none =>
      rw [ht] at hm
      exact Option.noConfusion hm
    | some m2 =>
      rw [ht] at hm
      exact Option.noConfusion hm

theorem perm_cons_erase_beq {α : Type} [BEq α] [LawfulBEq α] {a : α} :
    ∀ {l : List α}, a ∈ l → l.Perm (a :: l.erase a) := by
  intro l
  induction l with
  | nil => intro h; cases h
  | cons b t ih =>
    intro h
    rw [List.erase_cons]
    by_cases hba : (b == a) = true
    · rw [if_pos hba]
      have hb : b = a := eq_of_beq hba
      subst hb
      exact List.Perm.refl _
    · rw [if_neg hba]
      have hat : a ∈ t := by
        rcases List.mem_cons.mp h with rfl | h2
        · exact absurd (beq_self_eq_true a) hba
        · exact h2
      exact ((ih hat).cons b).trans (List.Perm.swap a b (t.erase a))

theorem popMin_spec {h : List (ℤ × Coord)} {e : ℤ × Coord}
    {rest : List (ℤ × Coord)} (hpop : popMin h = some (e, rest)) :
    heapMin h = some e ∧ rest = h.erase e := by
  unfold popMin at hpop
  cases hm : heapMin h with
  | none =>
    rw [hm] at hpop
    exact Option.noConfusion hpop
  | some mm =>
    rw [hm] at hpop
    injection hpop with hpop
    injection hpop with h1 h2
    subst h1
    exact ⟨rfl, h2.symm⟩

theorem popStep_pres {a : Coord} {dims : Dims} {s : MazeState}
    {e : ℤ × Coord} {rest : List (ℤ × Coord)}
    (inv : MazeInv a dims s) (ha : in_bounds dims a)
    (hpop : popMin s.heap = some (e, rest)) :
    RInv a dims e.2
      { s with heap := rest, visited := insert e.2 s.visited } := by
  obtain ⟨hmin, hrest⟩ := popMin_spec hpop
  subst hrest
  have he_mem : e ∈ s.heap := heapMin_mem hmin
  have hperm : s.heap.Perm (e :: s.heap.erase e) := perm_cons_erase_beq he_mem
  have hlocs_perm : (heapLocs s.heap).Perm
      (e.2 :: heapLocs (s.heap.erase e)) := hperm.map Prod.snd
  have hkey := inv.heap_entry e he_mem
  have hseen_e2 : s.cost e.2 ≠ -1 :=
    (inv.seen_iff e.2).mpr (Or.inr (List.mem_map_of_mem Prod.snd he_mem))
  have hnodup2 : (e.2 :: heapLocs (s.heap.erase e)).Nodup :=
    hlocs_perm.nodup_iff.mp inv.heap_nodup
  obtain ⟨hnot_e2, hnodup_rest⟩ := List.nodup_cons.mp hnodup2
  have hmemiff : ∀ c, c ∈ heapLocs s.heap ↔
      (c = e.2 ∨ c ∈ heapLocs (s.heap.erase e)) := by
    intro c
    rw [hlocs_perm.mem_iff, List.mem_cons]
  refine ⟨?_, inv.seen_a, inv.seen_reach, inv.seen_cost, ?_, hnodup_rest,
    ?_, ?_, inv.back_ok, ?_⟩
  · exact inv.seen_cost e.2 hseen_e2
  · intro c
    show s.cost c ≠ -1 ↔
      (c ∈ insert e.2 s.visited ∨ c ∈ heapLocs (s.heap.erase e))
    rw [inv.seen_iff c, hmemiff c, Finset.mem_insert]
    tauto
  · intro f hf
    have hf2 : f ∈ s.heap := hperm.mem_iff.mpr (List.mem_cons_of_mem e hf)
    refine ⟨(inv.heap_entry f hf2).1, ?_⟩
    show f.2 ∉ insert e.2 s.visited
    rw [Finset.mem_insert]
    rintro (hc | hc)
    · exact hnot_e2 (hc ▸ List.mem_map_of_mem Prod.snd hf)
    · exact (inv.heap_entry f hf2).2 hc
  · intro c hcv hcne m2 hm2 hbd2
    have hcv2 : c ∈ insert e.2 s.visited := hcv
    rcases Finset.mem_insert.mp hcv2 with hc | hc
    · exact absurd hc hcne
    · exact inv.closure c hc m2 hm2 hbd2
  · intro p hp hdvd hnv
    have hnv2 : p ∉ insert e.2 s.visited := hnv
    rw [Finset.mem_insert] at hnv2
    push_neg at hnv2
    obtain ⟨q, hq, hle⟩ := frontier_bound inv ha (mazeDist a p) p
      (le_refl _) hp hdvd hnv2.2
    unfold heapLocs at hq
    obtain ⟨f, hf, rfl⟩ := List.mem_map.mp hq
    have hle2 := heapMin_le hmin f hf
    have hfkey := (inv.heap_entry f hf).1
    have h12 : e.1 ≤ f.1 := by
      unfold entryLE at hle2
      omega
    have hcast : ((mazeDist a e.2 : ℕ) : ℤ) ≤ ((mazeDist a f.2 : ℕ) : ℤ) := by
      rw [← hkey.1, ← hfkey]
      exact h12
    exact le_trans (Nat.cast_le.mp hcast) hle

theorem pop_fold_inv {a b : Coord} {dims : Dims} {usage : Grid Bool}
    {s : MazeState} {e : ℤ × Coord} {rest : List (ℤ × Coord)}
    (hus : ∀ c, usage c = false) (ha : in_bounds dims a)
    (inv : MazeInv a dims s) (hpop : popMin s.heap = some (e, rest)) :
    MazeInv a dims (movements.foldl (relaxStep a b dims usage e.2)
      { s with heap := rest, visited := insert e.2 s.visited }) := by
  have he_mem : e ∈ s.heap := heapMin_mem (popMin_spec hpop).1
  have hnv : e.2 ∉ s.visited := (inv.heap_entry e he_mem).2
  have ri := popStep_pres inv ha hpop
  obtain ⟨ri2, _, hnl⟩ := relax_fold (b := b) hus movements (fun _ hm => hm) ri
  have hvisF : (movements.foldl (relaxStep a b dims usage e.2)
      { s with heap := rest, visited := insert e.2 s.visited }).visited =
      insert e.2 s.visited := foldl_relax_visited a b dims usage e.2 movements _
  refine ⟨ri2.seen_a, ri2.seen_reach, ri2.seen_cost, ri2.seen_iff,
    ri2.heap_nodup, ri2.heap_entry, ?_, ri2.back_ok⟩
  intro c hcv m hm2 hbd2
  rw [hvisF] at hcv
  rcases Finset.mem_insert.mp hcv with rfl | hcv2
  · exact hnl m hm2 hbd2
  · have hcne : c ≠ e.2 := fun hcon => hnv (hcon ▸ hcv2)
    exact ri2.closure_old c (by rw [hvisF]; exact Finset.mem_insert_of_mem hcv2)
      hcne m hm2 hbd2

theorem mazeLoop_inv {a b : Coord} {dims : Dims} {usage : Grid Bool}
    (hus : ∀ c, usage c = false) (ha : in_bounds dims a) :
    ∀ (n : ℕ) (s : MazeState), MazeInv a dims s →
      MazeInv a dims (mazeLoop a b dims usage n s) ∧
      ((boundsFinset dims).card < n + s.visited.card →
        (mazeLoop a b dims usage n s).heap = []) := by
  intro n
  induction n with
  | zero =>
    intro s inv
    refine ⟨inv, ?_⟩
    intro hcard
    exfalso
    have hsub : s.visited ⊆ boundsFinset dims := by
      intro c hc
      rw [mem_boundsFinset]
      exact (inv.seen_reach c ((inv.seen_iff c).mpr (Or.inl hc))).1
    have := Finset.card_le_card hsub
    omega
  | succ n ih =>
    intro s inv
    have hstep : mazeLoop a b dims usage (n + 1) s =
        match popMin s.heap with
        | none => s
        | some (e, rest) =>
            mazeLoop a b dims usage n
              (movements.foldl (relaxStep a b dims usage e.2)
                { s with heap := rest, visited := insert e.2 s.visited }) := rfl
    rw [hstep]
    cases hpop : popMin s.heap with
    | none =>
      refine ⟨inv, ?_⟩
      intro _
      show s.heap = []
      unfold popMin at hpop
      cases hm : heapMin s.heap with
      | none => exact heapMin_eq_none hm
      | some mm =>
        rw [hm] at hpop
        exact Option.noConfusion hpop
    | some p =>
      obtain ⟨e, rest⟩ := p
      have he_mem : e ∈ s.heap := heapMin_mem (popMin_spec hpop).1
      have hnv : e.2 ∉ s.visited := (inv.heap_entry e he_mem).2
      have inv2 := pop_fold_inv (b := b) hus ha inv hpop
      obtain ⟨invF, hdrF⟩ := ih _ inv2
      refine ⟨invF, ?_⟩
      intro hcard
      refine hdrF ?_
      have hv2 : (movements.foldl (relaxStep a b dims usage e.2)
          { s with heap := rest, visited := insert e.2 s.visited }).visited =
          insert e.2 s.visited := foldl_relax_visited a b dims usage e.2 movements _
      rw [hv2, Finset.card_insert_of_not_mem hnv]
      omega

theorem mazeInit_inv {a : Coord} {dims : Dims} (ha : in_bounds dims a) :
    MazeInv a dims
      { cost := fun c => if c = a then 0 else -1, back := fun _ => 0,
        visited := ∅, heap := [(0, a)] } := by
  have hseen : ∀ c : Coord, (if c = a then (0 : ℤ) else -1) ≠ -1 → c = a := by
    intro c hc
    by_contra h
    rw [if_neg h] at hc
    exact hc rfl
  have hda : mazeDist a a = 0 := by
    simp [mazeDist]
  refine ⟨?_, ?_, ?_, ?_, ?_, ?_, ?_, ?_⟩
  · show (if a = a then (0 : ℤ) else -1) ≠ -1
    rw [if_pos rfl]
    omega
  · intro c hc
    have hca := hseen c hc
    subst hca
    exact ⟨ha, by omega⟩
  · intro c hc
    have hca := hseen c hc
    subst hca
    show (if c = c then (0 : ℤ) else -1) = (mazeDist c c : ℤ)
    rw [if_pos rfl]
    simp [mazeDist]
  · intro c
    constructor
    · intro hc
      have hca := hseen c hc
      refine Or.inr ?_
      rw [hca]
      exact List.mem_singleton_self a
    · rintro (hc | hc)
      · exact absurd hc (Finset.not_mem_empty c)
      · have hca : c = a := by
          have h2 : c ∈ [a] := hc
          rwa [List.mem_singleton] at h2
        show (if c = a then (0 : ℤ) else -1) ≠ -1
        rw [if_pos hca]
        omega
  · show ([a] : List Coord).Nodup
    simp
  · intro e he
    rw [List.mem_singleton] at he
    subst he
    refine ⟨?_, ?_⟩
    · show (0 : ℤ) = (mazeDist a a : ℤ)
      rw [hda]
      simp
    · exact Finset.not_mem_empty a
  · intro c hc
    exact absurd hc (Finset.not_mem_empty c)
  · intro c hc hca
    exact absurd (hseen c hc) hca

theorem backMove_facts {k : ℤ} {mv : Coord} (h : backMove k = some mv) :
    1 ≤ stepCostN mv := by
  unfold backMove at h
  split_ifs at h <;>
    first
      | (injection h with h
         subst h
         decide)
      | exact Option.noConfusion h

theorem backtrace_walk {a : Coord} {dims : Dims} {s : MazeState}
    (inv : MazeInv a dims s) :
    ∀ (n : ℕ) (c : Coord), s.cost c ≠ -1 → mazeDist a c < n →
      ∃ p, backtraceLoop s.back a n c = some p ∧
        pathCostN p = mazeDist a c ∧ p.head? = some c ∧
        p.getLast? = some a := by
  intro n
  induction n with
  | zero =>
    intro c _ hd
    exact absurd hd (Nat.not_lt_zero _)
  | succ n ih =>
    intro c hc hd
    by_cases hca : c = a
    · subst hca
      have heq : backtraceLoop s.back c (n + 1) c = some [c] := by
        show (if c = c then some [c] else _) = some [c]
        rw [if_pos rfl]
      refine ⟨[c], heq, ?_, rfl, rfl⟩
      simp [pathCostN, mazeDist]
    · obtain ⟨mv, h1, h2, h3, h4⟩ := inv.back_ok c hc hca
      have hcost1 : 1 ≤ stepCostN mv := backMove_facts h1
      have hdn : mazeDist a (c + mv) < n := by omega
      obtain ⟨p, hp, hpc, hph, hpl⟩ := ih (c + mv) h3 hdn
      have heq : backtraceLoop s.back a (n + 1) c =
          (backtraceLoop s.back a n (c + mv)).map (fun q => c :: q) := by
        show (if c = a then some [a]
          else match backMove (s.back c) with
            | some mv2 =>
                (backtraceLoop s.back a n (c + mv2)).map (fun q => c :: q)
            | none => none) =
          (backtraceLoop s.back a n (c + mv)).map (fun q => c :: q)
        rw [if_neg hca, h1]
      rw [heq, hp]
      refine ⟨c :: p, rfl, ?_, rfl, ?_⟩
      · cases p with
        | nil => simp at hph
        | cons q rest =>
          have hq : q = c + mv := by
            simp only [List.head?_cons, Option.some.injEq] at hph
            exact hph
          subst hq
          show stepCostN (c + mv - c) + pathCostN ((c + mv) :: rest) =
            mazeDist a c
          rw [add_sub_cancel_left, hpc]
          omega
      · cases p with
        | nil => simp at hph
        | cons q rest =>
          rw [List.getLast?_cons_cons]
          exact hpl

theorem vol_bound {h d w : ℕ} (hh : 1 ≤ h) (hd : 1 ≤ d) (hw : 1 ≤ w) :
    h + d + w ≤ h * d * w + 2 := by
  obtain ⟨h2, rfl⟩ : ∃ h2, h = h2 + 1 := ⟨h - 1, by omega⟩
  obtain ⟨d2, rfl⟩ : ∃ d2, d = d2 + 1 := ⟨d - 1, by omega⟩
  obtain ⟨w2, rfl⟩ : ∃ w2, w = w2 + 1 := ⟨w - 1, by omega⟩
  have hexp : (h2 + 1) * (d2 + 1) * (w2 + 1) =
      h2 * d2 * w2 + h2 * d2 + h2 * w2 + d2 * w2 + h2 + d2 + w2 + 1 := by
    ring
  rw [hexp]
  have t1 : 0 ≤ h2 * d2 * w2 := Nat.zero_le _
  have t2 : 0 ≤ h2 * d2 := Nat.zero_le _
  have t3 : 0 ≤ h2 * w2 := Nat.zero_le _
  have t4 : 0 ≤ d2 * w2 := Nat.zero_le _
  linarith

theorem fuel_bounds {a b : Coord} {dims : Dims} (ha : in_bounds dims a)
    (hb : in_bounds dims b) :
    mazeDist a b < (dims.1 * dims.2.1 * dims.2.2).toNat + 1 ∧
      (boundsFinset dims).card <
        (dims.1 * dims.2.1 * dims.2.2).toNat + 1 := by
  obtain ⟨ay, az, ax⟩ := a
  obtain ⟨qy, qz, qx⟩ := b
  obtain ⟨H, D, W⟩ := dims
  unfold in_bounds at ha hb
  dsimp only at ha hb
  rw [boundsFinset_card]
  obtain ⟨h, rfl⟩ : ∃ h : ℕ, H = (h : ℤ) := ⟨H.toNat, by omega⟩
  obtain ⟨d, rfl⟩ : ∃ d : ℕ, D = (d : ℤ) := ⟨D.toNat, by omega⟩
  obtain ⟨w, rfl⟩ : ∃ w : ℕ, W = (w : ℤ) := ⟨W.toNat, by omega⟩
  have hm2 : (((h : ℤ), (d : ℤ), (w : ℤ)).1 * ((h : ℤ), (d : ℤ), (w : ℤ)).2.1 *
      ((h : ℤ), (d : ℤ), (w : ℤ)).2.2).toNat = h * d * w := by
    show ((h : ℤ) * (d : ℤ) * (w : ℤ)).toNat = h * d * w
    have hcast : ((h : ℤ) * (d : ℤ) * (w : ℤ)) = ((h * d * w : ℕ) : ℤ) := by
      push_cast
      ring
    rw [hcast]
    omega
  rw [hm2]
  have hvb : h + d + w ≤ h * d * w + 2 :=
    vol_bound (by omega) (by omega) (by omega)
  constructor
  · simp only [mazeDist]
    omega
  · have hassoc : h * (d * w) = h * d * w := by ring
    show h * (d * w) < h * d * w + 1
    rw [hassoc]
    omega

/-- C1: over a violation-free layout (empty usage matrix) and in-bounds
endpoints, the maze router returns, for every pair reachable under the
six-move set, a path whose accumulated cost is
`|Δz| + |Δx| + 3 * ⌈|Δy| / 3⌉`, and returns `None` for every unreachable
pair. -/
theorem C1_maze_route_optimal (a b : Coord) (dims : Dims) (usage : Grid Bool)
    (hus : ∀ c, usage c = false) (ha : in_bounds dims a)
    (hb : in_bounds dims b) :
    (MazeReachable dims a b →
      ∃ p, maze_route a b dims usage = some p ∧
        pathCostN p = (b.2.1 - a.2.1).natAbs + (b.2.2 - a.2.2).natAbs +
          3 * (((b.1 - a.1).natAbs + 2) / 3)) ∧
    (¬ MazeReachable dims a b → maze_route a b dims usage = none) := by
  obtain ⟨invF, hdrain⟩ := mazeLoop_inv (b := b) hus ha
    ((dims.1 * dims.2.1 * dims.2.2).toNat + 1)
    { cost := fun c => if c = a then 0 else -1, back := fun _ => 0,
      visited := ∅, heap := [(0, a)] } (mazeInit_inv ha)
  obtain ⟨hfuel1, hfuel2⟩ := fuel_bounds ha hb
  have hroute : maze_route a b dims usage =
      (if b ∈ (mazeLoop a b dims usage
          ((dims.1 * dims.2.1 * dims.2.2).toNat + 1)
          { cost := fun c => if c = a then 0 else -1, back := fun _ => 0,
            visited := ∅, heap := [(0, a)] }).visited then
        backtraceLoop (mazeLoop a b dims usage
            ((dims.1 * dims.2.1 * dims.2.2).toNat + 1)
            { cost := fun c => if c = a then 0 else -1, back := fun _ => 0,
              visited := ∅, heap := [(0, a)] }).back a
          ((dims.1 * dims.2.1 * dims.2.2).toNat + 1) b
      else none) := rfl
  have hheap : (mazeLoop a b dims usage
      ((dims.1 * dims.2.1 * dims.2.2).toNat + 1)
      { cost := fun c => if c = a then 0 else -1, back := fun _ => 0,
        visited := ∅, heap := [(0, a)] }).heap = [] := by
    refine hdrain ?_
    rw [Finset.card_empty]
    omega
  constructor
  · intro hreach
    have hdvd : 3 ∣ (b.1 - a.1) := mazeReachable_dvd hreach
    have hbvis : b ∈ (mazeLoop a b dims usage
        ((dims.1 * dims.2.1 * dims.2.2).toNat + 1)
        { cost := fun c => if c = a then 0 else -1, back := fun _ => 0,
          visited := ∅, heap := [(0, a)] }).visited := by
      by_contra hcon
      obtain ⟨q, hq, _⟩ := frontier_bound invF ha (mazeDist a b) b
        (le_refl _) hb hdvd hcon
      rw [hheap] at hq
      exact absurd hq (by simp [heapLocs])
    rw [hroute, if_pos hbvis]
    have hbseen := (invF.seen_iff b).mpr (Or.inl hbvis)
    obtain ⟨p, hp, hpc, _, _⟩ := backtrace_walk invF
      ((dims.1 * dims.2.1 * dims.2.2).toNat + 1) b hbseen hfuel1
    refine ⟨p, hp, ?_⟩
    rw [hpc]
    simp only [mazeDist]
    omega
  · intro hunreach
    have hndvd : ¬ 3 ∣ (b.1 - a.1) := by
      intro hdvd
      exact hunreach (mazeReachable_of_dvd ha (mazeDist a b) b
        (le_refl _) hb hdvd)
    have hbnvis : b ∉ (mazeLoop a b dims usage
        ((dims.1 * dims.2.1 * dims.2.2).toNat + 1)
        { cost := fun c => if c = a then 0 else -1, back := fun _ => 0,
          visited := ∅, heap := [(0, a)] }).visited := by
      intro hcon
      exact hndvd ((invF.seen_reach b
        ((invF.seen_iff b).mpr (Or.inl hcon))).2)
    rw [hroute, if_neg hbnvis]

/-- C1 witness: the theorem applied at dims `(1, 1, 2)`, endpoints
`(0,0,0)` and `(0,0,1)`, empty usage matrix. -/
theorem C1_witness :
    (MazeReachable (1, 1, 2) (0, 0, 0) (0, 0, 1) →
      ∃ p, maze_route (0, 0, 0) (0, 0, 1) (1, 1, 2) (fun _ => false) =
          some p ∧
        pathCostN p = ((0 : ℤ) - 0).natAbs + ((1 : ℤ) - 0).natAbs +
          3 * ((((0 : ℤ) - 0).natAbs + 2) / 3)) ∧
    (¬ MazeReachable (1, 1, 2) (0, 0, 0) (0, 0, 1) →
      maze_route (0, 0, 0) (0, 0, 1) (1, 1, 2) (fun _ => false) = none) :=
  C1_maze_route_optimal (0, 0, 0) (0, 0, 1) (1, 1, 2) (fun _ => false)
    (fun _ => rfl) (by decide) (by decide)
